import Mathlib

/-!
Verification of the Infinity-MSC fact pipeline and deterministic synthesis
engine.  The definitions below are shallow embeddings of the TypeScript
sources: `lib/card/deterministic.ts` and `scripts/src/card/deterministic.ts`
(the two canonicalizers), `scripts/src/llm/extractor.ts` (`mergeFacts`,
`normalizeAnchors`, `normalizeConfidence`, `computeGate`),
`scripts/src/llm/reasoner.ts` (`reconcileFacts`),
`scripts/src/llm/verifier.ts` (`runVerifierPass`),
`scripts/src/pipeline/deterministic.ts` (`buildFactsAndMutations`),
`scripts/src/write_card.ts` (`applyPatchAndWriteCard`) and
`scripts/src/actions/apply.ts` (patch assembly and the speculative apply
loop).  JavaScript numbers are modelled as rationals together with the
non-finite values (NaN and the two infinities); JavaScript exceptions are
modelled with `Option` (a `none` result is a thrown exception).
-/

set_option maxHeartbeats 1600000

namespace InfinityMsc

/-- Model of a JavaScript number: a finite double (as a rational) or one of
the non-finite values NaN, +Infinity, -Infinity. -/
inductive JNum where
  | fin (q : ℚ)
  | nan
  | inf
  | ninf
deriving DecidableEq, Repr

/-- Model of a JSON/YAML document value as produced by `js-yaml` parsing:
null, booleans, numbers, strings, arrays and objects.  Objects are modelled
as association lists in property-insertion order; JavaScript objects never
hold two properties with the same key. -/
inductive JVal where
  | null
  | bool (b : Bool)
  | num (n : JNum)
  | str (s : String)
  | arr (xs : List JVal)
  | obj (fs : List (String × JVal))
deriving Repr

instance : Inhabited JVal := ⟨.null⟩

mutual

/-- Structural equality test for document values. -/
def JVal.beq : JVal → JVal → Bool
  | .null, .null => true
  | .bool a, .bool b => a = b
  | .num a, .num b => a = b
  | .str a, .str b => a = b
  | .arr a, .arr b => JVal.beqList a b
  | .obj a, .obj b => JVal.beqEntries a b
  | _, _ => false

/-- Structural equality test for arrays of document values. -/
def JVal.beqList : List JVal → List JVal → Bool
  | [], [] => true
  | a :: as, b :: bs => (JVal.beq a b) && JVal.beqList as bs
  | _, _ => false

/-- Structural equality test for object entry lists. -/
def JVal.beqEntries : List (String × JVal) → List (String × JVal) → Bool
  | [], [] => true
  | (k, a) :: as, (l, b) :: bs => (k = l : Bool) && JVal.beq a b && JVal.beqEntries as bs
  | _, _ => false

end

mutual

theorem JVal.beq_refl : ∀ v : JVal, JVal.beq v v = true
  | .null => rfl
  | .bool b => by simp [JVal.beq]
  | .num n => by simp [JVal.beq]
  | .str s => by simp [JVal.beq]
  | .arr xs => by simp [JVal.beq, JVal.beqList_refl xs]
  | .obj fs => by simp [JVal.beq, JVal.beqEntries_refl fs]

theorem JVal.beqList_refl : ∀ xs : List JVal, JVal.beqList xs xs = true
  | [] => rfl
  | x :: xs => by simp [JVal.beqList, JVal.beq_refl x, JVal.beqList_refl xs]

theorem JVal.beqEntries_refl : ∀ fs : List (String × JVal), JVal.beqEntries fs fs = true
  | [] => rfl
  | (k, v) :: fs => by simp [JVal.beqEntries, JVal.beq_refl v, JVal.beqEntries_refl fs]

end

mutual

theorem JVal.eq_of_beq : ∀ {a b : JVal}, JVal.beq a b = true → a = b
  | .null, .null, _ => rfl
  | .bool _, .bool _, h => by simpa [JVal.beq] using congrArg (JVal.bool ·) (by simpa [JVal.beq] using h)
  | .num _, .num _, h => by
      have : _ = _ := of_decide_eq_true (by simpa [JVal.beq] using h)
      simp [this]
  | .str _, .str _, h => by
      have : _ = _ := of_decide_eq_true (by simpa [JVal.beq] using h)
      simp [this]
  | .arr as, .arr bs, h => by
      have := JVal.eqList_of_beq (a := as) (b := bs) (by simpa [JVal.beq] using h)
      simp [this]
  | .obj as, .obj bs, h => by
      have := JVal.eqEntries_of_beq (a := as) (b := bs) (by simpa [JVal.beq] using h)
      simp [this]

theorem JVal.eqList_of_beq : ∀ {a b : List JVal}, JVal.beqList a b = true → a = b
  | [], [], _ => rfl
  | x :: xs, y :: ys, h => by
      have h' : JVal.beq x y = true ∧ JVal.beqList xs ys = true := by
        simpa [JVal.beqList, Bool.and_eq_true] using h
      have h1 := JVal.eq_of_beq h'.1
      have h2 := JVal.eqList_of_beq h'.2
      simp [h1, h2]

theorem JVal.eqEntries_of_beq :
    ∀ {a b : List (String × JVal)}, JVal.beqEntries a b = true → a = b
  | [], [], _ => rfl
  | (k, x) :: xs, (l, y) :: ys, h => by
      have h' : (decide (k = l)) = true ∧ JVal.beq x y = true ∧ JVal.beqEntries xs ys = true := by
        simpa [JVal.beqEntries, Bool.and_eq_true, and_assoc] using h
      have hk : k = l := of_decide_eq_true h'.1
      have h1 := JVal.eq_of_beq h'.2.1
      have h2 := JVal.eqEntries_of_beq h'.2.2
      simp [hk, h1, h2]

end

instance : DecidableEq JVal := fun a b =>
  if h : JVal.beq a b = true then
    .isTrue (JVal.eq_of_beq h)
  else
    .isFalse (fun he => h (he ▸ JVal.beq_refl a))

/-! ## Stable sorting

`Array.prototype.sort(c)` is specified as a stable sort driven by the
comparator `c`; we model it as a stable insertion sort over the boolean
relation `le a b`, meaning `c(a, b) <= 0` (a comparator result of NaN is
treated as `+0` by the SortCompare operation, hence as a tie). -/

/-- Insert an element into a list in front of the first position whose head
does not compare strictly smaller; ties keep the inserted element first,
which matches the stability of the JavaScript sort. -/
def ordIns (le : α → α → Bool) (a : α) : List α → List α
  | [] => [a]
  | b :: l => if le a b then a :: b :: l else b :: ordIns le a l

/-- Stable insertion sort modelling `Array.prototype.sort` with a
comparator. -/
def stableSort (le : α → α → Bool) : List α → List α
  | [] => []
  | a :: l => ordIns le a (stableSort le l)

/-- The relation holds between every adjacent pair after insertion,
provided the comparator is total in the sense that at least one direction
always compares at-most-equal. -/
theorem chain'_ordIns (le : α → α → Bool)
    (htot : ∀ a b, le a b = true ∨ le b a = true) (a : α) :
    ∀ l : List α, l.Chain' (fun x y => le x y = true) →
      (ordIns le a l).Chain' (fun x y => le x y = true)
  | [], _ => by simp [ordIns]
  | b :: l, h => by
      by_cases hab : le a b = true
      · rw [ordIns, if_pos hab]
        exact List.chain'_cons.2 ⟨hab, h⟩
      · have hba : le b a = true := (htot a b).resolve_left hab
        have htail : l.Chain' (fun x y => le x y = true) := h.tail
        have hrec := chain'_ordIns le htot a l htail
        rw [ordIns, if_neg hab]
        rcases l with _ | ⟨c, l'⟩
        · simpa [ordIns] using hba
        · rw [ordIns] at hrec ⊢
          by_cases hac : le a c = true
          · rw [if_pos hac] at hrec ⊢
            exact List.chain'_cons.2 ⟨hba, hrec⟩
          · rw [if_neg hac] at hrec ⊢
            have hbc : le b c = true := (List.chain'_cons.1 h).1
            exact List.chain'_cons.2 ⟨hbc, hrec⟩

/-- The output of the stable sort is adjacent-ordered whenever the
comparator is total. -/
theorem chain'_stableSort (le : α → α → Bool)
    (htot : ∀ a b, le a b = true ∨ le b a = true) :
    ∀ l : List α, (stableSort le l).Chain' (fun x y => le x y = true)
  | [] => by simp [stableSort]
  | a :: l => chain'_ordIns le htot a (stableSort le l) (chain'_stableSort le htot l)

/-- Sorting a list that is already adjacent-ordered returns it unchanged;
this needs no transitivity, only the adjacent chain. -/
theorem stableSort_of_chain' (le : α → α → Bool) :
    ∀ l : List α, l.Chain' (fun x y => le x y = true) → stableSort le l = l
  | [], _ => rfl
  | [a], _ => by simp [stableSort, ordIns]
  | a :: b :: l, h => by
      have hab : le a b = true := (List.chain'_cons.1 h).1
      have htail := stableSort_of_chain' le (b :: l) h.tail
      simp [stableSort] at htail ⊢
      rw [htail, ordIns, if_pos hab]

/-- Membership in the result of an ordered insertion comes from the
inserted element or from the original list. -/
theorem mem_of_mem_ordIns (le : α → α → Bool) (w : α) :
    ∀ l : List α, ∀ z, z ∈ ordIns le w l → z = w ∨ z ∈ l
  | [], z, hz => by
      rw [ordIns] at hz
      exact .inl (List.mem_singleton.1 hz)
  | d :: l, z, hz => by
      rw [ordIns] at hz
      by_cases hle : le w d = true
      · rw [if_pos hle] at hz
        rcases List.mem_cons.1 hz with hz | hz
        · exact .inl hz
        · exact .inr hz
      · rw [if_neg hle] at hz
        rcases List.mem_cons.1 hz with hz | hz
        · exact .inr (by simp [hz])
        · rcases mem_of_mem_ordIns le w l z hz with hz | hz
          · exact .inl hz
          · exact .inr (List.mem_cons_of_mem _ hz)

/-- Every member of the sorted list is a member of the input. -/
theorem mem_of_mem_stableSort (le : α → α → Bool) :
    ∀ l : List α, ∀ z, z ∈ stableSort le l → z ∈ l
  | [], z, hz => by simpa [stableSort] using hz
  | c :: l, z, hz => by
      rw [stableSort] at hz
      rcases mem_of_mem_ordIns le c (stableSort le l) z hz with hz | hz
      · simp [hz]
      · exact List.mem_cons_of_mem _ (mem_of_mem_stableSort le l z hz)

/-- Ordered insertion with two comparators agreeing against the inserted
element gives identical results. -/
theorem ordIns_congr (le₁ le₂ : α → α → Bool) (a : α) :
    ∀ l : List α, (∀ b ∈ l, le₁ a b = le₂ a b) → ordIns le₁ a l = ordIns le₂ a l
  | [], _ => rfl
  | b :: l, h => by
      rw [ordIns, ordIns, h b (by simp)]
      by_cases hle : le₂ a b = true
      · rw [if_pos hle, if_pos hle]
      · rw [if_neg hle, if_neg hle,
          ordIns_congr le₁ le₂ a l (fun c hc => h c (List.mem_cons_of_mem _ hc))]

/-- Two comparators that agree on all members of a list sort it
identically. -/
theorem stableSort_congr (le₁ le₂ : α → α → Bool) :
    ∀ l : List α, (∀ a ∈ l, ∀ b ∈ l, le₁ a b = le₂ a b) →
      stableSort le₁ l = stableSort le₂ l
  | [], _ => rfl
  | a :: l, h => by
      have hrec := stableSort_congr le₁ le₂ l
        (fun x hx y hy => h x (List.mem_cons_of_mem _ hx) y (List.mem_cons_of_mem _ hy))
      rw [stableSort, stableSort, hrec]
      exact ordIns_congr le₁ le₂ a (stableSort le₂ l) (fun b hb =>
        h a (by simp) b
          (List.mem_cons_of_mem _ (mem_of_mem_stableSort le₂ l b hb)))

/-! ## Number normalization

Both canonicalizers execute
`Number.parseFloat(input.toPrecision(SIGNIFICANT_DIGITS))` with
`SIGNIFICANT_DIGITS = 3` on non-zero finite numbers.  `toPrecision(3)`
produces the decimal numeral with three significant digits nearest to the
input, ties resolved by picking the larger numeral, which on rationals is
rounding `q * 10 ^ (2 - e)` (with `e` the decimal exponent of `q`) half
towards positive infinity; Mathlib's `round` implements exactly that
tie-breaking rule. -/

/-- Round a non-zero rational to three significant decimal digits. -/
def roundSig3 (q : ℚ) : ℚ :=
  let e := Int.log 10 |q|
  ((round (q * (10 : ℚ) ^ ((2 : ℤ) - e)) : ℤ) : ℚ) * (10 : ℚ) ^ (e - (2 : ℤ))

theorem scaled_bounds {q : ℚ} (hq : q ≠ 0) :
    (100 : ℚ) ≤ |q * (10 : ℚ) ^ ((2 : ℤ) - Int.log 10 |q|)| ∧
      |q * (10 : ℚ) ^ ((2 : ℤ) - Int.log 10 |q|)| < 1000 := by
  set e := Int.log 10 |q| with he
  have h10 : (0 : ℚ) < (10 : ℚ) ^ ((2 : ℤ) - e) := zpow_pos (by norm_num) _
  have habs : |q * (10 : ℚ) ^ ((2 : ℤ) - e)| = |q| * (10 : ℚ) ^ ((2 : ℤ) - e) := by
    rw [abs_mul, abs_of_pos h10]
  have hqpos : (0 : ℚ) < |q| := abs_pos.2 hq
  have hlow : (10 : ℚ) ^ e ≤ |q| := Int.zpow_log_le_self (by norm_num) hqpos
  have hhigh : |q| < (10 : ℚ) ^ (e + 1) := Int.lt_zpow_succ_log_self (by norm_num) _
  constructor
  · rw [habs]
    calc (100 : ℚ) = (10 : ℚ) ^ e * (10 : ℚ) ^ ((2 : ℤ) - e) := by
          rw [← zpow_add₀ (by norm_num : (10 : ℚ) ≠ 0)]
          norm_num
      _ ≤ |q| * (10 : ℚ) ^ ((2 : ℤ) - e) := by
          exact mul_le_mul_of_nonneg_right hlow (le_of_lt h10)
  · rw [habs]
    calc |q| * (10 : ℚ) ^ ((2 : ℤ) - e)
        < (10 : ℚ) ^ (e + 1) * (10 : ℚ) ^ ((2 : ℤ) - e) := by
          exact mul_lt_mul_of_pos_right hhigh h10
      _ = 1000 := by
          rw [← zpow_add₀ (by norm_num : (10 : ℚ) ≠ 0),
            show e + 1 + (2 - e) = (3 : ℤ) by ring]
          norm_num

theorem round_scaled_bounds {q : ℚ} (hq : q ≠ 0) :
    (100 : ℤ) ≤ |round (q * (10 : ℚ) ^ ((2 : ℤ) - Int.log 10 |q|))| ∧
      |round (q * (10 : ℚ) ^ ((2 : ℤ) - Int.log 10 |q|))| ≤ 1000 := by
  obtain ⟨hlo, hhi⟩ := scaled_bounds hq
  set s := q * (10 : ℚ) ^ ((2 : ℤ) - Int.log 10 |q|) with hs
  have hdist : |s - (round s : ℚ)| ≤ 1 / 2 := by
    have := abs_sub_round s
    simpa using this
  have h1 : |(round s : ℚ)| ≥ |s| - 1 / 2 := by
    have := abs_sub_abs_le_abs_sub s ((round s : ℚ))
    linarith [abs_nonneg (s - (round s : ℚ))]
  have h2 : |(round s : ℚ)| ≤ |s| + 1 / 2 := by
    have h3 := abs_sub_abs_le_abs_sub ((round s : ℚ)) s
    have h4 : |(round s : ℚ) - s| = |s - (round s : ℚ)| := abs_sub_comm _ _
    linarith
  have hcast : |(round s : ℚ)| = ((|round s| : ℤ) : ℚ) := by
    push_cast
    rfl
  constructor
  · have h5 : (99 : ℚ) < ((|round s| : ℤ) : ℚ) := by
      rw [← hcast]
      linarith
    have h6 : (99 : ℤ) < |round s| := by exact_mod_cast h5
    omega
  · have h5 : ((|round s| : ℤ) : ℚ) < 1001 := by
      rw [← hcast]
      linarith
    have h6 : |round s| < (1001 : ℤ) := by exact_mod_cast h5
    omega

theorem roundSig3_ne_zero {q : ℚ} (hq : q ≠ 0) : roundSig3 q ≠ 0 := by
  obtain ⟨hlo, _⟩ := round_scaled_bounds hq
  rw [roundSig3]
  intro hcontra
  rcases mul_eq_zero.1 hcontra with h | h
  · have : round (q * (10 : ℚ) ^ ((2 : ℤ) - Int.log 10 |q|)) = 0 := by exact_mod_cast h
    rw [this] at hlo
    simp at hlo
  · exact zpow_ne_zero _ (by norm_num : (10 : ℚ) ≠ 0) h

theorem roundSig3_fixed {q : ℚ} (hq : q ≠ 0) : roundSig3 (roundSig3 q) = roundSig3 q := by
  set e := Int.log 10 |q| with he
  set n := round (q * (10 : ℚ) ^ ((2 : ℤ) - e)) with hn
  have hr : roundSig3 q = ((n : ℚ)) * (10 : ℚ) ^ (e - (2 : ℤ)) := rfl
  obtain ⟨hlo, hhi⟩ := round_scaled_bounds hq
  rw [← he, ← hn] at hlo hhi
  have hnq : ((|n| : ℤ) : ℚ) = |(n : ℚ)| := by push_cast; rfl
  have habs : |roundSig3 q| = |(n : ℚ)| * (10 : ℚ) ^ (e - (2 : ℤ)) := by
    rw [hr, abs_mul, abs_of_pos (zpow_pos (by norm_num : (0:ℚ) < 10) _)]
  by_cases hcap : |n| = 1000
  · -- the rounded mantissa hit 1000, so the value is exactly a power of ten
    have habs' : |roundSig3 q| = (10 : ℚ) ^ (e + 1) := by
      rw [habs, ← hnq, hcap]
      push_cast
      rw [show (1000 : ℚ) = (10 : ℚ) ^ ((3 : ℤ)) by norm_num,
        ← zpow_add₀ (by norm_num : (10 : ℚ) ≠ 0)]
      ring_nf
    have hlog : Int.log 10 |roundSig3 q| = e + 1 := by
      rw [habs']
      exact Int.log_zpow (by norm_num) _
    rw [roundSig3, hlog]
    obtain ⟨m, hm⟩ : (10 : ℤ) ∣ n := by
      rcases (abs_eq (by norm_num : (0:ℤ) ≤ 1000)).1 hcap with h | h
      · exact ⟨100, by omega⟩
      · exact ⟨-100, by omega⟩
    have hscaled : roundSig3 q * (10 : ℚ) ^ ((2 : ℤ) - (e + 1)) = ((m : ℤ) : ℚ) := by
      rw [hr, hm, mul_assoc, ← zpow_add₀ (by norm_num : (10 : ℚ) ≠ 0),
        show e - 2 + (2 - (e + 1)) = (-1 : ℤ) by ring, zpow_neg, zpow_one]
      push_cast
      ring
    rw [hscaled, round_intCast, hr, hm]
    rw [show e + 1 - 2 = 1 + (e - 2) by ring,
      zpow_add₀ (by norm_num : (10 : ℚ) ≠ 0), zpow_one]
    push_cast
    ring
  · -- mantissa strictly below 1000: the exponent is unchanged
    have hhi' : |n| < 1000 := lt_of_le_of_ne hhi hcap
    have hlog : Int.log 10 |roundSig3 q| = e := by
      have hpos : (0 : ℚ) < |roundSig3 q| :=
        abs_pos.2 (roundSig3_ne_zero hq)
      have hlow : (10 : ℚ) ^ e ≤ |roundSig3 q| := by
        rw [habs, ← hnq]
        calc (10 : ℚ) ^ e = 100 * (10 : ℚ) ^ (e - (2 : ℤ)) := by
              rw [show (100 : ℚ) = (10 : ℚ) ^ ((2 : ℤ)) by norm_num,
                ← zpow_add₀ (by norm_num : (10 : ℚ) ≠ 0)]
              ring_nf
          _ ≤ ((|n| : ℤ) : ℚ) * (10 : ℚ) ^ (e - (2 : ℤ)) := by
              have : (100 : ℚ) ≤ ((|n| : ℤ) : ℚ) := by exact_mod_cast hlo
              exact mul_le_mul_of_nonneg_right this
                (le_of_lt (zpow_pos (by norm_num) _))
      have hup : |roundSig3 q| < (10 : ℚ) ^ (e + 1) := by
        rw [habs, ← hnq]
        calc ((|n| : ℤ) : ℚ) * (10 : ℚ) ^ (e - (2 : ℤ))
            < 1000 * (10 : ℚ) ^ (e - (2 : ℤ)) := by
              have : ((|n| : ℤ) : ℚ) < (1000 : ℚ) := by exact_mod_cast hhi'
              exact mul_lt_mul_of_pos_right this (zpow_pos (by norm_num) _)
          _ = (10 : ℚ) ^ (e + 1) := by
              rw [show (1000 : ℚ) = (10 : ℚ) ^ ((3 : ℤ)) by norm_num,
                ← zpow_add₀ (by norm_num : (10 : ℚ) ≠ 0)]
              ring_nf
      have h1 : e ≤ Int.log 10 |roundSig3 q| :=
        (Int.zpow_le_iff_le_log (by norm_num) hpos).1 hlow
      have h2 : Int.log 10 |roundSig3 q| < e + 1 :=
        (Int.lt_zpow_iff_log_lt (by norm_num) hpos).1 hup
      omega
    rw [roundSig3, hlog]
    have hscaled : roundSig3 q * (10 : ℚ) ^ ((2 : ℤ) - e) = ((n : ℤ) : ℚ) := by
      rw [hr, mul_assoc, ← zpow_add₀ (by norm_num : (10 : ℚ) ≠ 0)]
      rw [show e - 2 + (2 - e) = (0 : ℤ) by ring]
      simp
    rw [hscaled, round_intCast, hr]

/-! ## String utilities -/

/-- Decimal digit test on a character. -/
def isDigitCh (c : Char) : Bool := 48 ≤ c.toNat && c.toNat ≤ 57

/-- Consume exactly `n` decimal digits from the front of a character list. -/
def takeDigits : Nat → List Char → Option (List Char)
  | 0, rest => some rest
  | _ + 1, [] => none
  | n + 1, c :: rest => if isDigitCh c then takeDigits n rest else none

/-- Consume one expected character. -/
def expectCh (c : Char) : List Char → Option (List Char)
  | [] => none
  | d :: rest => if d = c then some rest else none

/-- Fractional part of the timestamp pattern: one or more digits, then an
optional `Z`, then the end of the string. -/
def isoFracGo : List Char → Nat → Bool
  | [], k => decide (0 < k)
  | ['Z'], k => decide (0 < k)
  | c :: rest, k => if isDigitCh c then isoFracGo rest (k + 1) else false

/-- Tail of the timestamp pattern after the seconds: optionally a dot with
digits, optionally a `Z`, then the end of the string. -/
def isoRest : List Char → Bool
  | [] => true
  | ['Z'] => true
  | '.' :: rest => isoFracGo rest 0
  | _ => false

/-- Mandatory part of the timestamp pattern:
`dddd-dd-dd[T ]dd:dd:dd` with `d` a digit. -/
def isoCore (cs : List Char) : Option (List Char) := do
  let r ← takeDigits 4 cs
  let r ← expectCh '-' r
  let r ← takeDigits 2 r
  let r ← expectCh '-' r
  let r ← takeDigits 2 r
  let r ← (match r with
    | c :: rest => if c = 'T' ∨ c = ' ' then some rest else none
    | [] => none)
  let r ← takeDigits 2 r
  let r ← expectCh ':' r
  let r ← takeDigits 2 r
  let r ← expectCh ':' r
  takeDigits 2 r

/-- Model of the anchored regular expression `ISO_REGEX` of
`lib/card/deterministic.ts`. -/
def isoRegexMatch (s : String) : Bool :=
  match isoCore s.data with
  | some rest => isoRest rest
  | none => false

/-- Model of `value.toUpperCase().includes("T")` from
`scripts/src/card/deterministic.ts`, using the per-character uppercase
mapping. -/
def hasUpperT (s : String) : Bool := s.data.any (fun c => c.toUpper = 'T')

/-- Decimal digit character for a value below ten. -/
def digitCh (n : Nat) : Char := Char.ofNat (48 + n)

/-- Decimal numeral of a natural number, as produced by JavaScript
`String(index)`; the first argument is recursion fuel. -/
def natStrAux : Nat → Nat → List Char
  | 0, _ => []
  | fuel + 1, n => if n < 10 then [digitCh n] else natStrAux fuel (n / 10) ++ [digitCh (n % 10)]

/-- Decimal numeral of a natural number. -/
def natStr (n : Nat) : String := (natStrAux (n + 1) n).asString

/-- Decimal numeral of an integer. -/
def intStr (i : ℤ) : String := if i < 0 then "-" ++ natStr i.natAbs else natStr i.natAbs

/-- Array `join(".")`, used by both canonicalizers to build the sorter key
from the current path. -/
def joinSegs : List String → String
  | [] => ""
  | [s] => s
  | s :: t :: rest => s ++ "." ++ joinSegs (t :: rest)

/-- Presence of a decimal digit anywhere in a string. -/
def hasDigitStr (s : String) : Bool := s.data.any isDigitCh

theorem natStrAux_digits :
    ∀ fuel n, ∀ c ∈ natStrAux fuel n, isDigitCh c = true := by
  intro fuel
  induction fuel with
  | zero => intro n c hc; simp [natStrAux] at hc
  | succ fuel ih =>
      intro n c hc
      rw [natStrAux] at hc
      by_cases h : n < 10
      · rw [if_pos h] at hc
        have hc' : c = digitCh n := List.mem_singleton.1 hc
        subst hc'
        interval_cases n <;> decide
      · rw [if_neg h] at hc
        rcases List.mem_append.1 hc with hc | hc
        · exact ih (n / 10) c hc
        · have hc' : c = digitCh (n % 10) := List.mem_singleton.1 hc
          subst hc'
          have : n % 10 < 10 := Nat.mod_lt _ (by norm_num)
          interval_cases h10 : (n % 10) <;> simp_all <;> decide

theorem natStr_hasDigit (n : Nat) : hasDigitStr (natStr n) = true := by
  rw [hasDigitStr, natStr]
  have hne : natStrAux (n + 1) n ≠ [] := by
    rw [natStrAux]
    by_cases h : n < 10
    · simp [h]
    · simp only [if_neg h]
      intro hcontra
      exact absurd (List.append_eq_nil.1 hcontra).2 (by simp)
  rcases hx : natStrAux (n + 1) n with _ | ⟨c, rest⟩
  · exact absurd hx hne
  · have hc : c ∈ natStrAux (n + 1) n := by rw [hx]; simp
    have := natStrAux_digits (n + 1) n c hc
    simp [List.asString, List.any_cons, this]

theorem hasDigit_append (a b : String) :
    hasDigitStr (a ++ b) = (hasDigitStr a || hasDigitStr b) := by
  simp [hasDigitStr, String.data_append, List.any_append]

theorem joinSegs_hasDigit :
    ∀ segs : List String, ∀ s ∈ segs, hasDigitStr s = true →
      hasDigitStr (joinSegs segs) = true := by
  intro segs
  induction segs with
  | nil => intro s hs; simp at hs
  | cons a rest ih =>
      intro s hs hd
      rcases List.mem_cons.1 hs with hs | hs
      · subst hs
        rcases rest with _ | ⟨b, rest'⟩
        · simpa [joinSegs] using hd
        · rw [joinSegs, hasDigit_append, hasDigit_append, hd]
          rfl
      · rcases rest with _ | ⟨b, rest'⟩
        · simp at hs
        · rw [joinSegs, hasDigit_append, hasDigit_append, ih s hs hd]
          simp

/-! ## JavaScript coercions used by the array comparators -/

/-- Smallest power of ten divisible by the denominator, searched up to
`10 ^ 17`; `none` means the decimal expansion does not terminate there. -/
def tenPowDiv (den : Nat) : Option Nat :=
  (List.range 18).find? (fun k => 10 ^ k % den = 0)

/-- Left-pad a numeral with zeros to a given width. -/
def padZeros (w : Nat) (cs : List Char) : List Char :=
  List.replicate (w - cs.length) '0' ++ cs

/-- Model of the JavaScript number-to-string conversion on a finite value.
It is exact for integers and terminating decimal expansions of up to 17
fractional digits, which covers every numeral a double prints in fixed
notation; other rationals (unreachable as doubles) fall back to a
fraction spelling. -/
def jratToStr (q : ℚ) : String :=
  match tenPowDiv q.den with
  | some 0 => intStr q.num
  | some (k + 1) =>
      let scaled : ℤ := q.num * (10 : ℤ) ^ (k + 1) / (q.den : ℤ)
      let mag := scaled.natAbs
      let ip := mag / 10 ^ (k + 1)
      let fp := mag % 10 ^ (k + 1)
      (if q.num < 0 then "-" else "") ++ natStr ip ++ "." ++
        (padZeros (k + 1) (natStrAux (fp + 1) fp)).asString
  | none => intStr q.num ++ "/" ++ natStr q.den

/-- Model of the JavaScript number-to-string conversion. -/
def jnumToStr : JNum → String
  | .fin q => jratToStr q
  | .nan => "NaN"
  | .inf => "Infinity"
  | .ninf => "-Infinity"

/-- Model of the JavaScript `String()` coercion of a value.  Arrays join
their member coercions with commas (null members become empty); objects
print as `[object Object]`. -/
def jvalCoStr : JVal → String
  | .null => "null"
  | .bool b => cond b "true" "false"
  | .num n => jnumToStr n
  | .str s => s
  | .obj _ => "[object Object]"
  | .arr xs => joinComma xs
where
  /-- Comma-joined coercion of array members, as in `Array.prototype.toString`. -/
  joinComma : List JVal → String
    | [] => ""
    | [x] => elemStr x
    | x :: y :: rest => elemStr x ++ "," ++ joinComma (y :: rest)
  /-- Array members that are null print as the empty string inside a join. -/
  elemStr : JVal → String
    | .null => ""
    | v => jvalCoStr v

/-- Model of `String(x ?? "")`: a missing (`undefined`) or null value
coerces to the empty string. -/
def jsStrCo : Option JVal → String
  | none => ""
  | some .null => ""
  | some v => jvalCoStr v

/-- Simple decimal parser modelling `Number(string)` for optional sign,
digits and an optional fraction; other strings give NaN.  Only its
number-or-NaN outcome ever matters to the theorems below. -/
def strToNumModel (s : String) : JNum :=
  let cs := s.data.dropWhile (fun c => c = ' ')
  let cs := (cs.reverse.dropWhile (fun c => c = ' ')).reverse
  if cs.isEmpty then .fin 0
  else
    let (sign, cs) := match cs with
      | '-' :: rest => ((-1 : ℤ), rest)
      | '+' :: rest => ((1 : ℤ), rest)
      | rest => ((1 : ℤ), rest)
    let ip := cs.takeWhile isDigitCh
    let rest := cs.drop ip.length
    let digitVal : List Char → ℤ := fun ds =>
      ds.foldl (fun acc c => acc * 10 + ((c.toNat : ℤ) - 48)) 0
    match rest with
    | [] => if ip.isEmpty then .nan else .fin (sign * digitVal ip)
    | '.' :: fp =>
        if fp.all isDigitCh ∧ ¬(ip.isEmpty ∧ fp.isEmpty) then
          .fin (sign * (digitVal ip + (digitVal fp : ℚ) / (10 : ℚ) ^ fp.length))
        else .nan
    | _ => .nan

/-- Model of the JavaScript `Number()` coercion of a value. -/
def jsToNum : JVal → JNum
  | .null => .fin 0
  | .bool b => .fin (cond b 1 0)
  | .num n => n
  | .str s => strToNumModel s
  | .arr [] => .fin 0
  | .arr [x] => jsToNum x
  | .arr _ => .nan
  | .obj _ => .nan

/-! ## Comparator results

A JavaScript comparator returns a number; the sort treats a negative
result as less-than, zero and NaN as a tie, and a positive result as
greater-than.  We keep NaN results distinct because the two sorter tables
chain comparators differently: `compareBy` in `lib` returns a NaN
comparison immediately (NaN `!== 0`), while the `||` chains in `scripts`
fall through on NaN (NaN is falsy). -/

inductive JsCmpRes where
  | lt
  | eq
  | gt
  | nanRes
deriving DecidableEq, Repr

/-- Tie-or-less test: the comparator result is not strictly positive
(NaN counts as a tie). -/
def JsCmpRes.isLe : JsCmpRes → Bool
  | .gt => false
  | _ => true

/-- Swap of a comparator result, mirroring negation of the number. -/
def JsCmpRes.swapRes : JsCmpRes → JsCmpRes
  | .lt => .gt
  | .gt => .lt
  | .eq => .eq
  | .nanRes => .nanRes

/-- Embed an `Ordering` (a comparator that never returns NaN). -/
def JsCmpRes.ofOrdering : Ordering → JsCmpRes
  | .lt => .lt
  | .eq => .eq
  | .gt => .gt

/-- Chaining used by `compareBy` and the explicit `!== 0` early returns in
`lib/card/deterministic.ts`: any non-zero (including NaN) first result is
returned. -/
def thenStrict (r₁ r₂ : JsCmpRes) : JsCmpRes :=
  match r₁ with
  | .eq => r₂
  | r => r

/-- Chaining used by the `||` comparator chains in
`scripts/src/card/deterministic.ts`: zero and NaN are both falsy, so both
fall through to the next comparator. -/
def orFalsy (r₁ r₂ : JsCmpRes) : JsCmpRes :=
  match r₁ with
  | .eq => r₂
  | .nanRes => r₂
  | r => r

/-- Result sign of `Number(a) - Number(b)` on the extended number model. -/
def jsNumCmp : JNum → JNum → JsCmpRes
  | .nan, _ => .nanRes
  | _, .nan => .nanRes
  | .inf, .inf => .nanRes
  | .inf, _ => .gt
  | _, .inf => .lt
  | .ninf, .ninf => .nanRes
  | .ninf, _ => .lt
  | _, .ninf => .gt
  | .fin a, .fin b => .ofOrdering (compare a b)

theorem jsNumCmp_swap (a b : JNum) : jsNumCmp a b = (jsNumCmp b a).swapRes := by
  rcases a with qa | _ | _ | _ <;> rcases b with qb | _ | _ | _ <;>
    simp [jsNumCmp, JsCmpRes.swapRes, JsCmpRes.ofOrdering]
  rcases lt_trichotomy qa qb with h | h | h
  · simp [compare_lt_iff_lt.2 h, compare_gt_iff_gt.2 h, JsCmpRes.swapRes, JsCmpRes.ofOrdering]
  · simp [h, compare_eq_iff_eq.2 rfl, JsCmpRes.swapRes, JsCmpRes.ofOrdering]
  · simp [compare_lt_iff_lt.2 h, compare_gt_iff_gt.2 h, JsCmpRes.swapRes, JsCmpRes.ofOrdering]

theorem thenStrict_swap {a₁ b₁ a₂ b₂ : JsCmpRes}
    (h₁ : a₁ = b₁.swapRes) (h₂ : a₂ = b₂.swapRes) :
    thenStrict a₁ a₂ = (thenStrict b₁ b₂).swapRes := by
  subst h₁ h₂
  rcases b₁ <;> rcases b₂ <;> rfl

theorem orFalsy_swap {a₁ b₁ a₂ b₂ : JsCmpRes}
    (h₁ : a₁ = b₁.swapRes) (h₂ : a₂ = b₂.swapRes) :
    orFalsy a₁ a₂ = (orFalsy b₁ b₂).swapRes := by
  subst h₁ h₂
  rcases b₁ <;> rcases b₂ <;> rfl

/-! ## Host environment

The canonicalizers call three host facilities that are not part of the
repository: `String.prototype.localeCompare` (plain, for object keys and
fact paths, and with sensitivity `"base"` inside the array comparators),
`Date.parse` (NaN modelled as `none`) and `Date.prototype.toISOString` on
a valid epoch-millisecond value.  They are collected in an environment
record, and the theorems assume only properties that the ECMAScript
operations guarantee. -/

structure JsEnv where
  kCmp : String → String → Ordering
  sCmp : String → String → Ordering
  parseMs : String → Option ℤ
  formatIso : ℤ → String

/-- A string comparator behaves like a collation: comparing in the other
direction flips the result. -/
def CmpLawful (c : String → String → Ordering) : Prop :=
  ∀ a b, c a b = (c b a).swap

/-- Parsing the canonical timestamp format printed by `toISOString`
recovers the exact epoch value. -/
def DateRoundtrip (env : JsEnv) : Prop :=
  ∀ t, env.parseMs (env.formatIso t) = some t

/-- Canonical timestamps contain the letter `T`. -/
def FormatHasT (env : JsEnv) : Prop :=
  ∀ t, hasUpperT (env.formatIso t) = true

/-- Tie-or-less test on an `Ordering`, as used for sorting object keys by
`localeCompare`. -/
def ordLe (o : Ordering) : Bool :=
  match o with
  | .gt => false
  | _ => true

/-- First-match association lookup, modelling property access on an
object literal (JavaScript objects never repeat keys). -/
def assocFind : List (String × JVal) → String → Option JVal
  | [], _ => none
  | (k, v) :: rest, key => if k = key then some v else assocFind rest key

/-- Property access `a?.k`: `none` models `undefined`. -/
def getFieldOpt : JVal → String → Option JVal
  | .obj fs, k => assocFind fs k
  | _, _ => none

/-- The helper `getString` of `lib/card/deterministic.ts`: the property if
it is a string, otherwise the empty string. -/
def getStringLib (v : JVal) (k : String) : String :=
  match getFieldOpt v k with
  | some (.str s) => s
  | _ => ""

/-- The helper `getNumber` of `lib/card/deterministic.ts`: the property if
it is a number, otherwise negative infinity. -/
def getNumberLib (v : JVal) (k : String) : JNum :=
  match getFieldOpt v k with
  | some (.num n) => n
  | _ => .ninf

/-- The helper `compareUnknown` of `lib/card/deterministic.ts`: numeric
subtraction when both operands are numbers, otherwise a base-sensitivity
collation of the `String(x ?? "")` coercions. -/
def cmpUnknown (env : JsEnv) : Option JVal → Option JVal → JsCmpRes
  | some (.num x), some (.num y) => jsNumCmp x y
  | a, b => .ofOrdering (env.sCmp (jsStrCo a) (jsStrCo b))

/-- The mapper `parseDateComparator` of `lib/card/deterministic.ts`:
`Date.parse` of a string property, negative infinity otherwise. -/
def dateKeyLib (env : JsEnv) : Option JVal → JNum
  | some (.str s) =>
      match env.parseMs s with
      | some t => .fin (t : ℚ)
      | none => .ninf
  | _ => .ninf

/-- Base-sensitivity collation of `String(x ?? "")` coercions, the helper
`compareString` of `scripts/src/card/deterministic.ts`. -/
def cmpStrScr (env : JsEnv) (a b : Option JVal) : JsCmpRes :=
  .ofOrdering (env.sCmp (jsStrCo a) (jsStrCo b))

/-- Numeric key of the helper `compareNumber` of
`scripts/src/card/deterministic.ts`: `Number(x ?? -Infinity)`. -/
def numKeyScr : Option JVal → JNum
  | none => .ninf
  | some .null => .ninf
  | some v => jsToNum v

/-- Date key of the helper `compareDate` of
`scripts/src/card/deterministic.ts`: `Date.parse(String(x ?? ""))` with a
NaN parse collapsing to negative infinity. -/
def dateKeyScr (env : JsEnv) (v : Option JVal) : JNum :=
  match env.parseMs (jsStrCo v) with
  | some t => .fin (t : ℚ)
  | none => .ninf

/-- Comparator shape stored in the per-path sorter tables. -/
abbrev SorterFn := JsEnv → JVal → JVal → JsCmpRes

/-- The table `ARRAY_SORTERS` of `lib/card/deterministic.ts`. -/
def libSorters : List (String × SorterFn) :=
  [ ("business.kpis", fun env a b =>
      cmpUnknown env (getFieldOpt a "name") (getFieldOpt b "name")),
    ("governance.riskRegister", fun env a b =>
      thenStrict (jsNumCmp (getNumberLib b "likelihood") (getNumberLib a "likelihood"))
        (thenStrict (jsNumCmp (getNumberLib b "impact") (getNumberLib a "impact"))
          (.ofOrdering (env.sCmp (getStringLib a "item") (getStringLib b "item"))))),
    ("governance.signOffs", fun env a b =>
      jsNumCmp (dateKeyLib env (getFieldOpt a "timestamp"))
        (dateKeyLib env (getFieldOpt b "timestamp"))),
    ("mlCore.metrics", fun env a b =>
      thenStrict (.ofOrdering (env.sCmp (getStringLib a "slice") (getStringLib b "slice")))
        (.ofOrdering (env.sCmp (getStringLib a "metric") (getStringLib b "metric")))),
    ("mlCore.qualities", fun env a b =>
      thenStrict
        (.ofOrdering (env.sCmp (getStringLib a "category") (getStringLib b "category")))
        (.ofOrdering (env.sCmp (getStringLib a "evaluationProtocol")
          (getStringLib b "evaluationProtocol")))),
    ("mlCore.failureModes", fun env a b =>
      .ofOrdering (env.sCmp (getStringLib a "name") (getStringLib b "name"))),
    ("provenance.changelog", fun env a b =>
      jsNumCmp (dateKeyLib env (getFieldOpt a "date")) (dateKeyLib env (getFieldOpt b "date"))),
    ("integration.operationalQualities", fun env a b =>
      .ofOrdering (env.sCmp (getStringLib a "name") (getStringLib b "name"))),
    ("integration.operationalQualities.targets", fun env a b =>
      .ofOrdering (env.sCmp (getStringLib a "label") (getStringLib b "label"))),
    ("integration.operationalQualities.measures", fun env a b =>
      .ofOrdering (env.sCmp (getStringLib a "label") (getStringLib b "label"))),
    ("ai.fieldMeta", fun env a b =>
      .ofOrdering (env.sCmp (getStringLib a "path") (getStringLib b "path"))) ]

/-- The table `arraySorters` of `scripts/src/card/deterministic.ts`. -/
def scrSorters : List (String × SorterFn) :=
  [ ("ai.fieldMeta", fun env a b =>
      cmpStrScr env (getFieldOpt a "path") (getFieldOpt b "path")),
    ("business.kpis", fun env a b =>
      cmpStrScr env (getFieldOpt a "name") (getFieldOpt b "name")),
    ("governance.riskRegister", fun env a b =>
      orFalsy (jsNumCmp (numKeyScr (getFieldOpt b "likelihood"))
          (numKeyScr (getFieldOpt a "likelihood")))
        (orFalsy (jsNumCmp (numKeyScr (getFieldOpt b "impact"))
            (numKeyScr (getFieldOpt a "impact")))
          (cmpStrScr env (getFieldOpt a "item") (getFieldOpt b "item")))),
    ("governance.signOffs", fun env a b =>
      jsNumCmp (dateKeyScr env (getFieldOpt a "timestamp"))
        (dateKeyScr env (getFieldOpt b "timestamp"))),
    ("integration.operationalQualities", fun env a b =>
      cmpStrScr env (getFieldOpt a "name") (getFieldOpt b "name")),
    ("integration.operationalQualities.targets", fun env a b =>
      cmpStrScr env (getFieldOpt a "label") (getFieldOpt b "label")),
    ("integration.operationalQualities.measures", fun env a b =>
      cmpStrScr env (getFieldOpt a "label") (getFieldOpt b "label")),
    ("mlCore.failureModes", fun env a b =>
      cmpStrScr env (getFieldOpt a "name") (getFieldOpt b "name")),
    ("mlCore.metrics", fun env a b =>
      orFalsy (cmpStrScr env (getFieldOpt a "slice") (getFieldOpt b "slice"))
        (cmpStrScr env (getFieldOpt a "metric") (getFieldOpt b "metric"))),
    ("mlCore.qualities", fun env a b =>
      orFalsy (cmpStrScr env (getFieldOpt a "category") (getFieldOpt b "category"))
        (cmpStrScr env (getFieldOpt a "evaluationProtocol")
          (getFieldOpt b "evaluationProtocol"))),
    ("provenance.changelog", fun env a b =>
      jsNumCmp (dateKeyScr env (getFieldOpt a "date")) (dateKeyScr env (getFieldOpt b "date"))) ]

/-- Sorter-table lookup by joined path key. -/
def findSorter : List (String × SorterFn) → String → Option SorterFn
  | [], _ => none
  | (k, f) :: rest, key => if k = key then some f else findSorter rest key

/-- Number normalization step shared by both canonicalizers: non-finite
numbers become null, zero (including JavaScript `-0`, which is `=== 0`)
stays zero, and other values are rounded to three significant digits. -/
def jnumNormVal : JNum → JVal
  | .fin q => if q = 0 then .num (.fin 0) else .num (.fin (roundSig3 q))
  | _ => .null

mutual

/-- The canonicalizer `normalizeCard` of `lib/card/deterministic.ts`.  A
`none` result models the `RangeError` thrown by `toISOString` when the
string matches the timestamp pattern but `new Date(...)` is invalid. -/
def normLib (env : JsEnv) (path : List String) : JVal → Option JVal
  | .null => pure .null
  | .bool b => pure (.bool b)
  | .num n => pure (jnumNormVal n)
  | .str s =>
      if isoRegexMatch s then
        match env.parseMs s with
        | some t => pure (.str (env.formatIso t))
        | none => none
      else pure (.str s)
  | .arr xs => do
      let ys ← normLibArr env path 0 xs
      let sorted := match findSorter libSorters (joinSegs path) with
        | some f => stableSort (fun a b => (f env a b).isLe) ys
        | none => ys
      pure (.arr sorted)
  | .obj fs => do
      let gs ← normLibObj env path fs
      pure (.obj (stableSort (fun a b => ordLe (env.kCmp a.1 b.1)) gs))

/-- Member-wise normalization of an array, extending the path with the
decimal index as `normalizeCard` does with `String(index)`. -/
def normLibArr (env : JsEnv) (path : List String) (i : Nat) :
    List JVal → Option (List JVal)
  | [] => pure []
  | x :: xs => do
      let y ← normLib env (path ++ [natStr i]) x
      let ys ← normLibArr env path (i + 1) xs
      pure (y :: ys)

/-- Entry-wise normalization of an object, extending the path with each
key. -/
def normLibObj (env : JsEnv) (path : List String) :
    List (String × JVal) → Option (List (String × JVal))
  | [] => pure []
  | (k, v) :: fs => do
      let w ← normLib env (path ++ [k]) v
      let ws ← normLibObj env path fs
      pure ((k, w) :: ws)

end

mutual

/-- The canonicalizer `normalizeCard` of
`scripts/src/card/deterministic.ts`; it never throws, because the
timestamp branch runs only when `Date.parse` succeeded. -/
def normScr (env : JsEnv) (path : List String) : JVal → JVal
  | .null => .null
  | .bool b => .bool b
  | .num n => jnumNormVal n
  | .str s =>
      match env.parseMs s with
      | some t => if hasUpperT s then .str (env.formatIso t) else .str s
      | none => .str s
  | .arr xs =>
      let ys := normScrArr env path 0 xs
      match findSorter scrSorters (joinSegs path) with
      | some f => .arr (stableSort (fun a b => (f env a b).isLe) ys)
      | none => .arr ys
  | .obj fs =>
      .obj (stableSort (fun a b => ordLe (env.kCmp a.1 b.1)) (normScrObj env path fs))

/-- Member-wise normalization of an array for the scripts canonicalizer. -/
def normScrArr (env : JsEnv) (path : List String) (i : Nat) : List JVal → List JVal
  | [] => []
  | x :: xs => normScr env (path ++ [natStr i]) x :: normScrArr env path (i + 1) xs

/-- Entry-wise normalization of an object for the scripts canonicalizer. -/
def normScrObj (env : JsEnv) (path : List String) :
    List (String × JVal) → List (String × JVal)
  | [] => []
  | (k, v) :: fs => (k, normScr env (path ++ [k]) v) :: normScrObj env path fs

end

/-! ## Totality of the registered comparators -/

theorem ofOrdering_swap {c : String → String → Ordering} (hc : CmpLawful c) (x y : String) :
    JsCmpRes.ofOrdering (c x y) = (JsCmpRes.ofOrdering (c y x)).swapRes := by
  rw [hc x y]
  rcases c y x <;> rfl

theorem cmpUnknown_swap {env : JsEnv} (hc : CmpLawful env.sCmp) (a b : Option JVal) :
    cmpUnknown env a b = (cmpUnknown env b a).swapRes := by
  rcases a with _ | av
  · rcases b with _ | bv
    · exact ofOrdering_swap hc _ _
    · rcases bv <;> exact ofOrdering_swap hc _ _
  · rcases b with _ | bv
    · rcases av <;> exact ofOrdering_swap hc _ _
    · rcases av with _ | _ | an | _ | _ | _ <;> rcases bv with _ | _ | bn | _ | _ | _ <;>
        first
          | exact jsNumCmp_swap _ _
          | exact ofOrdering_swap hc _ _

theorem cmpStrScr_swap {env : JsEnv} (hc : CmpLawful env.sCmp) (a b : Option JVal) :
    cmpStrScr env a b = (cmpStrScr env b a).swapRes :=
  ofOrdering_swap hc _ _

/-- Every comparator registered in the `lib` sorter table flips under
argument swap, given a collation-like base comparator. -/
theorem libSorters_swap :
    ∀ p ∈ libSorters, ∀ env : JsEnv, CmpLawful env.sCmp →
      ∀ a b, p.2 env a b = (p.2 env b a).swapRes := by
  intro p hp env hc a b
  fin_cases hp
  · exact cmpUnknown_swap hc _ _
  · exact thenStrict_swap (jsNumCmp_swap _ _)
      (thenStrict_swap (jsNumCmp_swap _ _) (ofOrdering_swap hc _ _))
  · exact jsNumCmp_swap _ _
  · exact thenStrict_swap (ofOrdering_swap hc _ _) (ofOrdering_swap hc _ _)
  · exact thenStrict_swap (ofOrdering_swap hc _ _) (ofOrdering_swap hc _ _)
  · exact ofOrdering_swap hc _ _
  · exact jsNumCmp_swap _ _
  · exact ofOrdering_swap hc _ _
  · exact ofOrdering_swap hc _ _
  · exact ofOrdering_swap hc _ _
  · exact ofOrdering_swap hc _ _

/-- Every comparator registered in the `scripts` sorter table flips under
argument swap, given a collation-like base comparator. -/
theorem scrSorters_swap :
    ∀ p ∈ scrSorters, ∀ env : JsEnv, CmpLawful env.sCmp →
      ∀ a b, p.2 env a b = (p.2 env b a).swapRes := by
  intro p hp env hc a b
  fin_cases hp
  · exact cmpStrScr_swap hc _ _
  · exact cmpStrScr_swap hc _ _
  · exact orFalsy_swap (jsNumCmp_swap _ _)
      (orFalsy_swap (jsNumCmp_swap _ _) (cmpStrScr_swap hc _ _))
  · exact jsNumCmp_swap _ _
  · exact cmpStrScr_swap hc _ _
  · exact cmpStrScr_swap hc _ _
  · exact cmpStrScr_swap hc _ _
  · exact cmpStrScr_swap hc _ _
  · exact orFalsy_swap (cmpStrScr_swap hc _ _) (cmpStrScr_swap hc _ _)
  · exact orFalsy_swap (cmpStrScr_swap hc _ _) (cmpStrScr_swap hc _ _)
  · exact jsNumCmp_swap _ _

theorem isLe_total_of_swap {x y : JsCmpRes} (h : x = y.swapRes) :
    x.isLe = true ∨ y.isLe = true := by
  subst h
  rcases y <;> simp [JsCmpRes.swapRes, JsCmpRes.isLe]

/-- A lookup in a sorter table only returns a stored comparator. -/
theorem findSorter_mem :
    ∀ tab : List (String × SorterFn), ∀ key f, findSorter tab key = some f →
      ∃ k, (k, f) ∈ tab ∧ k = key
  | [], key, f, h => by simp [findSorter] at h
  | (k, g) :: rest, key, f, h => by
      rw [findSorter] at h
      by_cases hk : k = key
      · rw [if_pos hk] at h
        have hf : g = f := Option.some.inj h
        exact ⟨k, by simp [hf.symm], hk⟩
      · rw [if_neg hk] at h
        obtain ⟨k', hk', hkey⟩ := findSorter_mem rest key f h
        exact ⟨k', List.mem_cons_of_mem _ hk', hkey⟩

/-- Object keys compare with the plain collation; swapping flips the
boolean only one way, which is all totality needs. -/
theorem ordLe_total {c : String → String → Ordering} (hc : CmpLawful c) (a b : String) :
    ordLe (c a b) = true ∨ ordLe (c b a) = true := by
  rw [hc a b]
  rcases c b a <;> simp [ordLe, Ordering.swap]

/-! ## Paths below arrays never hit a registered sorter

All registered sorter keys are digit-free, while every path that passes
through an array contains a decimal index segment, so the joined key of
such a path can never match the table. -/

theorem findSorter_digit_none (tab : List (String × SorterFn))
    (hkeys : ∀ p ∈ tab, hasDigitStr p.1 = false) (key : String)
    (hd : hasDigitStr key = true) : findSorter tab key = none := by
  induction tab with
  | nil => rfl
  | cons p rest ih =>
      obtain ⟨k, f⟩ := p
      rw [findSorter]
      by_cases hk : k = key
      · subst hk
        have := hkeys (k, f) (by simp)
        simp at this
        rw [this] at hd
        exact absurd hd (by simp)
      · rw [if_neg hk]
        exact ih (fun q hq => hkeys q (List.mem_cons_of_mem _ hq))

theorem libSorters_keys_digitFree : ∀ p ∈ libSorters, hasDigitStr p.1 = false := by
  intro p hp
  fin_cases hp <;> decide

theorem scrSorters_keys_digitFree : ∀ p ∈ scrSorters, hasDigitStr p.1 = false := by
  intro p hp
  fin_cases hp <;> decide

/-- A path list with a digit somewhere joins to a key with a digit. -/
theorem anyDigit_joinSegs {p : List String} (h : p.any hasDigitStr = true) :
    hasDigitStr (joinSegs p) = true := by
  obtain ⟨s, hs, hd⟩ := List.any_eq_true.1 h
  exact joinSegs_hasDigit p s hs hd

theorem anyDigit_append_left {p : List String} (h : p.any hasDigitStr = true) (x : String) :
    (p ++ [x]).any hasDigitStr = true := by
  rw [List.any_append, h]
  rfl

theorem anyDigit_append_natStr (p : List String) (i : Nat) :
    (p ++ [natStr i]).any hasDigitStr = true := by
  rw [List.any_append]
  have : [natStr i].any hasDigitStr = true := by simp [natStr_hasDigit i]
  rw [this]
  simp

/-! ## Structural induction with member hypotheses -/

theorem JVal.strongInd (P : JVal → Prop) (hnull : P .null) (hbool : ∀ b, P (.bool b))
    (hnum : ∀ n, P (.num n)) (hstr : ∀ s, P (.str s))
    (harr : ∀ xs, (∀ x ∈ xs, P x) → P (.arr xs))
    (hobj : ∀ fs, (∀ kv ∈ fs, P kv.2) → P (.obj fs)) : ∀ v, P v
  | .null => hnull
  | .bool b => hbool b
  | .num n => hnum n
  | .str s => hstr s
  | .arr xs => harr xs (fun x hx =>
      have : sizeOf x < 1 + sizeOf xs := by
        have := List.sizeOf_lt_of_mem hx
        omega
      JVal.strongInd P hnull hbool hnum hstr harr hobj x)
  | .obj fs => hobj fs (fun kv hkv =>
      have h1 : sizeOf kv < sizeOf fs := List.sizeOf_lt_of_mem hkv
      have h2 : sizeOf kv.2 < sizeOf kv := by
        obtain ⟨k, v⟩ := kv
        simp only [Prod.mk.sizeOf_spec]
        omega
      have : sizeOf kv.2 < 1 + sizeOf fs := by omega
      JVal.strongInd P hnull hbool hnum hstr harr hobj kv.2)
termination_by v => sizeOf v

/-! ## Normalization below an array is path-independent -/

theorem normLib_digit_congr (env : JsEnv) :
    ∀ v : JVal, ∀ p q : List String, p.any hasDigitStr = true →
      q.any hasDigitStr = true → normLib env p v = normLib env q v := by
  intro v
  induction v using JVal.strongInd with
  | hnull => intro p q _ _; simp [normLib]
  | hbool => intro p q _ _; simp [normLib]
  | hnum => intro p q _ _; simp [normLib]
  | hstr => intro p q _ _; simp [normLib]
  | harr xs ih =>
      intro p q hp hq
      have harr' : ∀ i, normLibArr env p i xs = normLibArr env q i xs := by
        intro i
        induction xs generalizing i with
        | nil => simp [normLibArr]
        | cons x xs ihx =>
            rw [normLibArr, normLibArr]
            rw [ih x (by simp) (p ++ [natStr i]) (q ++ [natStr i])
              (anyDigit_append_natStr p i) (anyDigit_append_natStr q i)]
            rw [ihx (fun y hy => ih y (List.mem_cons_of_mem _ hy)) (i + 1)]
      rw [normLib, normLib, harr' 0,
        findSorter_digit_none libSorters libSorters_keys_digitFree _ (anyDigit_joinSegs hp),
        findSorter_digit_none libSorters libSorters_keys_digitFree _ (anyDigit_joinSegs hq)]
  | hobj fs ih =>
      intro p q hp hq
      have hobj' : normLibObj env p fs = normLibObj env q fs := by
        induction fs with
        | nil => simp [normLibObj]
        | cons kv fs ihf =>
            obtain ⟨k, v⟩ := kv
            rw [normLibObj, normLibObj]
            rw [ih (k, v) (by simp) (p ++ [k]) (q ++ [k])
              (anyDigit_append_left hp k) (anyDigit_append_left hq k)]
            rw [ihf (fun kv' hkv' => ih kv' (List.mem_cons_of_mem _ hkv'))]
      rw [normLib, normLib, hobj']

theorem normScr_digit_congr (env : JsEnv) :
    ∀ v : JVal, ∀ p q : List String, p.any hasDigitStr = true →
      q.any hasDigitStr = true → normScr env p v = normScr env q v := by
  intro v
  induction v using JVal.strongInd with
  | hnull => intro p q _ _; simp [normScr]
  | hbool => intro p q _ _; simp [normScr]
  | hnum => intro p q _ _; simp [normScr]
  | hstr => intro p q _ _; simp [normScr]
  | harr xs ih =>
      intro p q hp hq
      have harr' : ∀ i, normScrArr env p i xs = normScrArr env q i xs := by
        intro i
        induction xs generalizing i with
        | nil => simp [normScrArr]
        | cons x xs ihx =>
            rw [normScrArr, normScrArr]
            rw [ih x (by simp) (p ++ [natStr i]) (q ++ [natStr i])
              (anyDigit_append_natStr p i) (anyDigit_append_natStr q i)]
            rw [ihx (fun y hy => ih y (List.mem_cons_of_mem _ hy)) (i + 1)]
      rw [normScr, normScr, harr' 0,
        findSorter_digit_none scrSorters scrSorters_keys_digitFree _ (anyDigit_joinSegs hp),
        findSorter_digit_none scrSorters scrSorters_keys_digitFree _ (anyDigit_joinSegs hq)]
  | hobj fs ih =>
      intro p q hp hq
      have hobj' : normScrObj env p fs = normScrObj env q fs := by
        induction fs with
        | nil => simp [normScrObj]
        | cons kv fs ihf =>
            obtain ⟨k, v⟩ := kv
            rw [normScrObj, normScrObj]
            rw [ih (k, v) (by simp) (p ++ [k]) (q ++ [k])
              (anyDigit_append_left hp k) (anyDigit_append_left hq k)]
            rw [ihf (fun kv' hkv' => ih kv' (List.mem_cons_of_mem _ hkv'))]
      rw [normScr, normScr, hobj']

/-! ## Idempotence of the lib canonicalizer -/

theorem normLibArr_members (env : JsEnv) (p : List String) :
    ∀ xs : List JVal, ∀ i ys, normLibArr env p i xs = some ys →
      ∀ y ∈ ys, ∃ x ∈ xs, ∃ j, normLib env (p ++ [natStr j]) x = some y
  | [], i, ys, h => by
      rw [normLibArr] at h
      intro y hy
      rw [← Option.some.inj h] at hy
      simp at hy
  | x :: xs, i, ys, h => by
      rw [normLibArr] at h
      intro y hy
      rcases hx : normLib env (p ++ [natStr i]) x with _ | y₀
      · rw [hx] at h; simp at h
      · rw [hx] at h
        rcases hxs : normLibArr env p (i + 1) xs with _ | ys₀
        · rw [hxs] at h; simp at h
        · rw [hxs] at h
          simp at h
          rw [← h] at hy
          rcases List.mem_cons.1 hy with hy | hy
          · exact ⟨x, by simp, i, by rw [hx, hy]⟩
          · obtain ⟨x', hx', j, hj⟩ := normLibArr_members env p xs (i + 1) ys₀ hxs y hy
            exact ⟨x', List.mem_cons_of_mem _ hx', j, hj⟩

theorem normLibArr_fixed (env : JsEnv) (p : List String) :
    ∀ l : List JVal, (∀ y ∈ l, ∀ j, normLib env (p ++ [natStr j]) y = some y) →
      ∀ i, normLibArr env p i l = some l
  | [], _, i => by rw [normLibArr]; rfl
  | y :: l, h, i => by
      rw [normLibArr, h y (by simp) i,
        normLibArr_fixed env p l (fun z hz => h z (List.mem_cons_of_mem _ hz)) (i + 1)]
      rfl

theorem normLibObj_members (env : JsEnv) (p : List String) :
    ∀ fs : List (String × JVal), ∀ gs, normLibObj env p fs = some gs →
      ∀ kw ∈ gs, ∃ v, (kw.1, v) ∈ fs ∧ normLib env (p ++ [kw.1]) v = some kw.2
  | [], gs, h => by
      rw [normLibObj] at h
      intro kw hkw
      rw [← Option.some.inj h] at hkw
      simp at hkw
  | (k, v) :: fs, gs, h => by
      rw [normLibObj] at h
      intro kw hkw
      rcases hv : normLib env (p ++ [k]) v with _ | w
      · rw [hv] at h; simp at h
      · rw [hv] at h
        rcases hfs : normLibObj env p fs with _ | gs₀
        · rw [hfs] at h; simp at h
        · rw [hfs] at h
          simp at h
          rw [← h] at hkw
          rcases List.mem_cons.1 hkw with hkw | hkw
          · refine ⟨v, by simp [hkw], ?_⟩
            rw [hkw]
            exact hv
          · obtain ⟨v', hv', hj⟩ := normLibObj_members env p fs gs₀ hfs kw hkw
            exact ⟨v', List.mem_cons_of_mem _ hv', hj⟩

theorem normLibObj_fixed (env : JsEnv) (p : List String) :
    ∀ l : List (String × JVal), (∀ kw ∈ l, normLib env (p ++ [kw.1]) kw.2 = some kw.2) →
      normLibObj env p l = some l
  | [], _ => by rw [normLibObj]; rfl
  | (k, w) :: l, h => by
      rw [normLibObj, h (k, w) (by simp),
        normLibObj_fixed env p l (fun kw hkw => h kw (List.mem_cons_of_mem _ hkw))]
      rfl

/-- Applying the lib canonicalizer to one of its own results (at the same
path) returns that result unchanged; a thrown first pass is preserved by
the Kleisli composition separately. -/
theorem normLib_fixed (env : JsEnv) (hk : CmpLawful env.kCmp) (hs : CmpLawful env.sCmp)
    (hd : DateRoundtrip env) :
    ∀ v : JVal, ∀ p w, normLib env p v = some w → normLib env p w = some w := by
  intro v
  induction v using JVal.strongInd with
  | hnull =>
      intro p w h
      rw [normLib] at h
      rw [← Option.some.inj h, normLib]
      rfl
  | hbool b =>
      intro p w h
      rw [normLib] at h
      rw [← Option.some.inj h, normLib]
      rfl
  | hnum n =>
      intro p w h
      rw [normLib] at h
      rw [← Option.some.inj h]
      rcases n with q | _ | _ | _
      · by_cases hq : q = 0
        · simp [jnumNormVal, hq, normLib]
        · simp only [jnumNormVal, if_neg hq]
          rw [normLib]
          simp [jnumNormVal, roundSig3_ne_zero hq, roundSig3_fixed hq]
      · simp [jnumNormVal, normLib]
      · simp [jnumNormVal, normLib]
      · simp [jnumNormVal, normLib]
  | hstr s =>
      intro p w h
      rw [normLib] at h
      by_cases hiso : isoRegexMatch s = true
      · rw [if_pos hiso] at h
        rcases ht : env.parseMs s with _ | t
        · rw [ht] at h; simp at h
        · rw [ht] at h
          have h' : JVal.str (env.formatIso t) = w := Option.some.inj h
          rw [← h', normLib]
          by_cases hiso' : isoRegexMatch (env.formatIso t) = true
          · rw [if_pos hiso', hd t]
            rfl
          · rw [if_neg hiso']
            rfl
      · rw [if_neg hiso] at h
        have h' : JVal.str s = w := Option.some.inj h
        rw [← h', normLib, if_neg hiso]
        rfl
  | harr xs ih =>
      intro p w h
      rw [normLib] at h
      rcases hys : normLibArr env p 0 xs with _ | ys
      · rw [hys] at h; simp at h
      · rw [hys] at h
        simp only [Option.bind_eq_bind, Option.some_bind] at h
        have hmem : ∀ y ∈ ys, ∀ j, normLib env (p ++ [natStr j]) y = some y := by
          intro y hy j
          obtain ⟨x, hx, j₀, hj₀⟩ := normLibArr_members env p xs 0 ys hys y hy
          have hfix := ih x hx (p ++ [natStr j₀]) y hj₀
          rw [normLib_digit_congr env y (p ++ [natStr j]) (p ++ [natStr j₀])
            (anyDigit_append_natStr p j) (anyDigit_append_natStr p j₀)]
          exact hfix
        rcases hfind : findSorter libSorters (joinSegs p) with _ | f
        · rw [hfind] at h
          have hw : JVal.arr ys = w := Option.some.inj h
          rw [← hw, normLib, normLibArr_fixed env p ys hmem 0]
          simp only [Option.bind_eq_bind, Option.some_bind]
          rw [hfind]
          rfl
        · rw [hfind] at h
          have htot : ∀ a b,
              (fun a b => (f env a b).isLe) a b = true ∨
                (fun a b => (f env a b).isLe) b a = true := by
            intro a b
            obtain ⟨k, hkmem, _⟩ := findSorter_mem libSorters (joinSegs p) f hfind
            exact isLe_total_of_swap (libSorters_swap (k, f) hkmem env hs a b)
          have hw : JVal.arr (stableSort (fun a b => (f env a b).isLe) ys) = w :=
            Option.some.inj h
          have hsortmem : ∀ y ∈ stableSort (fun a b => (f env a b).isLe) ys, y ∈ ys :=
            fun y hy => mem_of_mem_stableSort _ ys y hy
          rw [← hw, normLib,
            normLibArr_fixed env p (stableSort (fun a b => (f env a b).isLe) ys)
              (fun y hy j => hmem y (hsortmem y hy) j) 0]
          simp only [Option.bind_eq_bind, Option.some_bind]
          rw [hfind]
          show pure (JVal.arr (stableSort (fun a b => (f env a b).isLe)
            (stableSort (fun a b => (f env a b).isLe) ys))) =
            some (JVal.arr (stableSort (fun a b => (f env a b).isLe) ys))
          rw [stableSort_of_chain' (fun a b => (f env a b).isLe)
            (stableSort (fun a b => (f env a b).isLe) ys)
            (chain'_stableSort (fun a b => (f env a b).isLe) htot ys)]
          rfl
  | hobj fs ih =>
      intro p w h
      rw [normLib] at h
      rcases hgs : normLibObj env p fs with _ | gs
      · rw [hgs] at h; simp at h
      · rw [hgs] at h
        simp only [Option.bind_eq_bind, Option.some_bind] at h
        have hmem : ∀ kw ∈ gs, normLib env (p ++ [kw.1]) kw.2 = some kw.2 := by
          intro kw hkw
          obtain ⟨v, hv, hj⟩ := normLibObj_members env p fs gs hgs kw hkw
          exact ih (kw.1, v) hv (p ++ [kw.1]) kw.2 hj
        have htot : ∀ a b : String × JVal,
            (fun a b : String × JVal => ordLe (env.kCmp a.1 b.1)) a b = true ∨
              (fun a b : String × JVal => ordLe (env.kCmp a.1 b.1)) b a = true :=
          fun a b => ordLe_total hk a.1 b.1
        have hw : JVal.obj
            (stableSort (fun a b : String × JVal => ordLe (env.kCmp a.1 b.1)) gs) = w :=
          Option.some.inj h
        have hsortmem : ∀ kw ∈ stableSort
            (fun a b : String × JVal => ordLe (env.kCmp a.1 b.1)) gs, kw ∈ gs :=
          fun kw hkw => mem_of_mem_stableSort _ gs kw hkw
        rw [← hw, normLib,
          normLibObj_fixed env p
            (stableSort (fun a b : String × JVal => ordLe (env.kCmp a.1 b.1)) gs)
            (fun kw hkw => hmem kw (hsortmem kw hkw))]
        simp only [Option.bind_eq_bind, Option.some_bind]
        rw [stableSort_of_chain' (fun a b : String × JVal => ordLe (env.kCmp a.1 b.1))
          (stableSort (fun a b : String × JVal => ordLe (env.kCmp a.1 b.1)) gs)
          (chain'_stableSort (fun a b : String × JVal => ordLe (env.kCmp a.1 b.1)) htot gs)]
        rfl

/-! ## Idempotence of the scripts canonicalizer -/

theorem normScrArr_members (env : JsEnv) (p : List String) :
    ∀ xs : List JVal, ∀ i, ∀ y ∈ normScrArr env p i xs,
      ∃ x ∈ xs, ∃ j, y = normScr env (p ++ [natStr j]) x
  | [], i, y, hy => by
      rw [normScrArr] at hy
      simp at hy
  | x :: xs, i, y, hy => by
      rw [normScrArr] at hy
      rcases List.mem_cons.1 hy with hy | hy
      · exact ⟨x, by simp, i, hy⟩
      · obtain ⟨x', hx', j, hj⟩ := normScrArr_members env p xs (i + 1) y hy
        exact ⟨x', List.mem_cons_of_mem _ hx', j, hj⟩

theorem normScrArr_fixed (env : JsEnv) (p : List String) :
    ∀ l : List JVal, (∀ y ∈ l, ∀ j, normScr env (p ++ [natStr j]) y = y) →
      ∀ i, normScrArr env p i l = l
  | [], _, i => by rw [normScrArr]
  | y :: l, h, i => by
      rw [normScrArr, h y (by simp) i,
        normScrArr_fixed env p l (fun z hz => h z (List.mem_cons_of_mem _ hz)) (i + 1)]

theorem normScrObj_members (env : JsEnv) (p : List String) :
    ∀ fs : List (String × JVal), ∀ kw ∈ normScrObj env p fs,
      ∃ v, (kw.1, v) ∈ fs ∧ kw.2 = normScr env (p ++ [kw.1]) v
  | [], kw, hkw => by
      rw [normScrObj] at hkw
      simp at hkw
  | (k, v) :: fs, kw, hkw => by
      rw [normScrObj] at hkw
      rcases List.mem_cons.1 hkw with hkw | hkw
      · exact ⟨v, by simp [hkw], by rw [hkw]⟩
      · obtain ⟨v', hv', hj⟩ := normScrObj_members env p fs kw hkw
        exact ⟨v', List.mem_cons_of_mem _ hv', hj⟩

theorem normScrObj_fixed (env : JsEnv) (p : List String) :
    ∀ l : List (String × JVal), (∀ kw ∈ l, normScr env (p ++ [kw.1]) kw.2 = kw.2) →
      normScrObj env p l = l
  | [], _ => by rw [normScrObj]
  | (k, w) :: l, h => by
      rw [normScrObj]
      have h1 : normScr env (p ++ [k]) w = w := h (k, w) (by simp)
      rw [h1, normScrObj_fixed env p l (fun kw hkw => h kw (List.mem_cons_of_mem _ hkw))]

/-- Applying the scripts canonicalizer to one of its own results (at the
same path) returns that result unchanged. -/
theorem normScr_fixed (env : JsEnv) (hk : CmpLawful env.kCmp) (hs : CmpLawful env.sCmp)
    (hd : DateRoundtrip env) (hT : FormatHasT env) :
    ∀ v : JVal, ∀ p, normScr env p (normScr env p v) = normScr env p v := by
  intro v
  induction v using JVal.strongInd with
  | hnull => intro p; simp [normScr]
  | hbool b => intro p; simp [normScr]
  | hnum n =>
      intro p
      rw [normScr]
      rcases n with q | _ | _ | _
      · by_cases hq : q = 0
        · simp [jnumNormVal, hq, normScr]
        · simp only [jnumNormVal, if_neg hq]
          rw [normScr]
          simp [jnumNormVal, roundSig3_ne_zero hq, roundSig3_fixed hq]
      · simp [jnumNormVal, normScr]
      · simp [jnumNormVal, normScr]
      · simp [jnumNormVal, normScr]
  | hstr s =>
      intro p
      rcases ht : env.parseMs s with _ | t
      · have h1 : normScr env p (.str s) = .str s := by simp [normScr, ht]
        rw [h1]
        exact h1
      · by_cases hTs : hasUpperT s = true
        · have h1 : normScr env p (.str s) = .str (env.formatIso t) := by
            simp [normScr, ht, hTs]
          have h2 : normScr env p (.str (env.formatIso t)) = .str (env.formatIso t) := by
            simp [normScr, hd t, hT t]
          rw [h1, h2]
        · have h1 : normScr env p (.str s) = .str s := by simp [normScr, ht, hTs]
          rw [h1]
          exact h1
  | harr xs ih =>
      intro p
      have hmem : ∀ y ∈ normScrArr env p 0 xs, ∀ j, normScr env (p ++ [natStr j]) y = y := by
        intro y hy j
        obtain ⟨x, hx, j₀, hj₀⟩ := normScrArr_members env p xs 0 y hy
        rw [normScr_digit_congr env y (p ++ [natStr j]) (p ++ [natStr j₀])
          (anyDigit_append_natStr p j) (anyDigit_append_natStr p j₀), hj₀]
        exact ih x hx (p ++ [natStr j₀])
      rcases hfind : findSorter scrSorters (joinSegs p) with _ | f
      · have hval : normScr env p (.arr xs) = .arr (normScrArr env p 0 xs) := by
          rw [normScr, hfind]
        rw [hval]
        have hfix := normScrArr_fixed env p (normScrArr env p 0 xs) hmem 0
        rw [normScr, hfix, hfind]
      · have hval : normScr env p (.arr xs) =
            .arr (stableSort (fun a b => (f env a b).isLe) (normScrArr env p 0 xs)) := by
          rw [normScr, hfind]
        have htot : ∀ a b,
            (fun a b => (f env a b).isLe) a b = true ∨
              (fun a b => (f env a b).isLe) b a = true := by
          intro a b
          obtain ⟨k, hkmem, _⟩ := findSorter_mem scrSorters (joinSegs p) f hfind
          exact isLe_total_of_swap (scrSorters_swap (k, f) hkmem env hs a b)
        rw [hval]
        have hfix := normScrArr_fixed env p
          (stableSort (fun a b => (f env a b).isLe) (normScrArr env p 0 xs))
          (fun y hy j => hmem y (mem_of_mem_stableSort _ _ y hy) j) 0
        have hsorted := stableSort_of_chain' (fun a b => (f env a b).isLe)
          (stableSort (fun a b => (f env a b).isLe) (normScrArr env p 0 xs))
          (chain'_stableSort (fun a b => (f env a b).isLe) htot (normScrArr env p 0 xs))
        rw [normScr, hfix, hfind]
        show JVal.arr (stableSort (fun a b => (f env a b).isLe)
            (stableSort (fun a b => (f env a b).isLe) (normScrArr env p 0 xs))) =
          JVal.arr (stableSort (fun a b => (f env a b).isLe) (normScrArr env p 0 xs))
        rw [hsorted]
  | hobj fs ih =>
      intro p
      have hmem : ∀ kw ∈ normScrObj env p fs, normScr env (p ++ [kw.1]) kw.2 = kw.2 := by
        intro kw hkw
        obtain ⟨v, hv, hj⟩ := normScrObj_members env p fs kw hkw
        rw [hj]
        exact ih (kw.1, v) hv (p ++ [kw.1])
      have htot : ∀ a b : String × JVal,
          (fun a b : String × JVal => ordLe (env.kCmp a.1 b.1)) a b = true ∨
            (fun a b : String × JVal => ordLe (env.kCmp a.1 b.1)) b a = true :=
        fun a b => ordLe_total hk a.1 b.1
      have hval : normScr env p (.obj fs) =
          .obj (stableSort (fun a b : String × JVal => ordLe (env.kCmp a.1 b.1))
            (normScrObj env p fs)) := by
        rw [normScr]
      rw [hval]
      have hfix := normScrObj_fixed env p
        (stableSort (fun a b : String × JVal => ordLe (env.kCmp a.1 b.1))
          (normScrObj env p fs))
        (fun kw hkw => hmem kw (mem_of_mem_stableSort _ _ kw hkw))
      have hsorted := stableSort_of_chain'
        (fun a b : String × JVal => ordLe (env.kCmp a.1 b.1))
        (stableSort (fun a b : String × JVal => ordLe (env.kCmp a.1 b.1))
          (normScrObj env p fs))
        (chain'_stableSort (fun a b : String × JVal => ordLe (env.kCmp a.1 b.1)) htot
          (normScrObj env p fs))
      rw [normScr, hfix, hsorted]

/-! ## Claim C1 -/

/-- C1: the canonicalizer is idempotent.  For every document value, running
`normalizeCard` twice equals running it once — for the `lib` implementation
as a partial function (a thrown timestamp re-emission on the first pass is
the same exception on both sides), and for the `scripts` implementation as
a total function.  The environment hypotheses state only what ECMAScript
guarantees: `localeCompare` is a collation, parsing a `toISOString` output
recovers the epoch value, and canonical timestamps contain a `T`. -/
theorem normalizeCard_idempotent (env : JsEnv)
    (hk : CmpLawful env.kCmp) (hs : CmpLawful env.sCmp)
    (hd : DateRoundtrip env) (hT : FormatHasT env) (d : JVal) :
    (normLib env [] d).bind (normLib env []) = normLib env [] d ∧
      normScr env [] (normScr env [] d) = normScr env [] d := by
  constructor
  · rcases h : normLib env [] d with _ | w
    · rfl
    · simp only [Option.bind_eq_bind, Option.some_bind]
      exact normLib_fixed env hk hs hd d [] w h
  · exact normScr_fixed env hk hs hd hT d []

/-- Ordering from a linear order, used to instantiate the collation
hypotheses in witnesses. -/
def linCmp (a b : String) : Ordering :=
  if a < b then .lt else if b < a then .gt else .eq

theorem linCmp_lawful : CmpLawful linCmp := by
  intro a b
  rcases lt_trichotomy a b with h | h | h
  · rw [linCmp, if_pos h, linCmp, if_neg (lt_asymm h), if_pos h]
    rfl
  · rw [linCmp, if_neg (by rw [h]; exact lt_irrefl b), if_neg (by rw [h]; exact lt_irrefl b),
      linCmp, if_neg (by rw [h]; exact lt_irrefl b), if_neg (by rw [h]; exact lt_irrefl b)]
    rfl
  · rw [linCmp, if_neg (lt_asymm h), if_pos h, linCmp, if_pos h]
    rfl

/-- Concrete timestamp printer for the witness environment: a `T`, a sign
marker for negative values and a tally of `a` characters. -/
def envWFormat (t : ℤ) : String :=
  if 0 ≤ t then "T" ++ (List.replicate t.toNat 'a').asString
  else "Tn" ++ (List.replicate (-t).toNat 'a').asString

/-- Concrete timestamp parser for the witness environment, inverse to
`envWFormat` on its image. -/
def envWParse (s : String) : Option ℤ :=
  if s.data.head? = some 'T' then
    let rest := s.data.tail
    if rest.head? = some 'n' then
      if rest.tail.all (fun c => c = 'a') then some (-(rest.tail.length : ℤ)) else none
    else if rest.all (fun c => c = 'a') then some ((rest.length : ℤ)) else none
  else none

/-- Code-point comparison of characters. -/
def chCmp (a b : Char) : Ordering := compare a.toNat b.toNat

/-- Lexicographic code-point comparison of character lists. -/
def strCmpL : List Char → List Char → Ordering
  | [], [] => .eq
  | [], _ :: _ => .lt
  | _ :: _, [] => .gt
  | a :: as, b :: bs =>
      match chCmp a b with
      | .eq => strCmpL as bs
      | o => o

/-- Lexicographic code-point comparison of strings, a concrete collation
used to instantiate the `localeCompare` hypotheses in witnesses. -/
def strCmp (a b : String) : Ordering := strCmpL a.data b.data

theorem nat_compare_swap (a b : ℕ) : compare a b = (compare b a).swap := by
  rcases lt_trichotomy a b with h | h | h
  · rw [compare_lt_iff_lt.2 h, compare_gt_iff_gt.2 h]
    rfl
  · rw [h, compare_eq_iff_eq.2 rfl]
    rfl
  · rw [compare_gt_iff_gt.2 h, compare_lt_iff_lt.2 h]
    rfl

theorem strCmpL_swap : ∀ as bs, strCmpL as bs = (strCmpL bs as).swap
  | [], [] => rfl
  | [], _ :: _ => rfl
  | _ :: _, [] => rfl
  | a :: as, b :: bs => by
      rw [strCmpL, strCmpL, chCmp, chCmp, nat_compare_swap]
      rcases compare b.toNat a.toNat with _ | _ | _
      · rfl
      · simpa [Ordering.swap] using strCmpL_swap as bs
      · rfl

theorem strCmp_lawful : CmpLawful strCmp := fun a b => strCmpL_swap a.data b.data

/-- Witness environment instantiating the host facilities. -/
def envW : JsEnv :=
  { kCmp := strCmp, sCmp := strCmp, parseMs := envWParse, formatIso := envWFormat }

theorem data_append (a b : String) : (a ++ b).data = a.data ++ b.data := rfl

theorem replicate_all_a (n : Nat) :
    (List.replicate n 'a').all (fun c => c = 'a') = true := by
  rw [List.all_eq_true]
  intro c hc
  simp [List.eq_of_mem_replicate hc]

theorem envW_roundtrip : DateRoundtrip envW := by
  intro t
  show envWParse (envWFormat t) = some t
  by_cases ht : 0 ≤ t
  · have hdata : (envWFormat t).data = 'T' :: List.replicate t.toNat 'a' := by
      rw [envWFormat, if_pos ht, data_append]
      rfl
    rw [envWParse, hdata]
    simp only [List.head?, List.tail, Option.some.injEq, if_true, reduceCtorEq]
    rcases hn : t.toNat with _ | n
    · have h0 : t = 0 := by omega
      simp [h0]
    · have hchar : (('a' : Char) = 'n') = False := eq_false (by decide)
      simp only [List.replicate_succ, List.all_cons, List.length_cons, List.length_replicate,
        Option.some.injEq, hchar, if_false, Bool.false_and, replicate_all_a,
        Bool.true_and, if_true, decide_eq_true_eq]
      have harith : (((n : ℕ) : ℤ) + 1) = t := by omega
      simp [replicate_all_a, harith]
  · have hdata : (envWFormat t).data = 'T' :: 'n' :: List.replicate (-t).toNat 'a' := by
      rw [envWFormat, if_neg ht, data_append]
      rfl
    rw [envWParse, hdata]
    simp only [List.head?, List.tail, Option.some.injEq, if_true, replicate_all_a,
      List.length_replicate]
    have : ((-t).toNat : ℤ) = -t := by omega
    simp [this, replicate_all_a]

theorem envW_hasT : FormatHasT envW := by
  intro t
  show hasUpperT (envWFormat t) = true
  rw [hasUpperT]
  by_cases ht : 0 ≤ t
  · have hdata : (envWFormat t).data = 'T' :: List.replicate t.toNat 'a' := by
      rw [envWFormat, if_pos ht, data_append]
      rfl
    rw [hdata, List.any_cons]
    simp
  · have hdata : (envWFormat t).data = 'T' :: 'n' :: List.replicate (-t).toNat 'a' := by
      rw [envWFormat, if_neg ht, data_append]
      rfl
    rw [hdata, List.any_cons]
    simp

/-- Sample document used to instantiate C1's hypotheses at a concrete
input: nested objects, a sorted array path, timestamps, numbers and
null. -/
def sampleDoc : JVal :=
  .obj [("governance", .obj [("riskRegister", .arr
      [ .obj [("item", .str "b"), ("likelihood", .num (.fin 0))],
        .obj [("item", .str "a"), ("likelihood", .num (.inf))] ])]),
    ("meta", .obj [("title", .str "x"), ("when", .str "Taa")]),
    ("flags", .arr [.bool true, .null])]

/-- Witness for C1: the idempotence theorem applied to the concrete
environment and document, with every hypothesis discharged. -/
theorem normalizeCard_idempotent_witness :
    (normLib envW [] sampleDoc).bind (normLib envW []) = normLib envW [] sampleDoc ∧
      normScr envW [] (normScr envW [] sampleDoc) = normScr envW [] sampleDoc :=
  normalizeCard_idempotent envW strCmp_lawful strCmp_lawful envW_roundtrip envW_hasT sampleDoc

/-! ## Facts, anchors, gates

Shallow embedding of the data model of `lib/card/types.ts`. -/

/-- Trust tier of a fact. -/
inductive Gate where
  | ok
  | warn
  | requireTier
deriving DecidableEq, Repr

/-- Provenance pointer; `startLine`/`endLine` are JavaScript numbers. -/
structure Anchor where
  path : String
  startLine : JNum
  endLine : JNum
  commit : String
  fingerprint : Option String := none
  kind : Option String := none
deriving DecidableEq, Repr

/-- Origin tag of a fact. -/
inductive SourceKind where
  | extracted
  | inferred
  | manual
deriving DecidableEq, Repr

/-- A fact as carried through the pipeline. -/
structure Fact where
  jsonPath : String
  jsonPointer : Option String := none
  currentValue : Option JVal := none
  proposedValue : Option JVal := none
  sourceKind : SourceKind := .extracted
  repoSources : List Anchor := []
  confidence : ℚ := 0
  gate : Gate := .ok
  verifierNotes : Option String := none
deriving DecidableEq, Repr

/-! ## Verification pass (`scripts/src/llm/verifier.ts`) -/

/-- One entry of the verifier reply envelope. -/
structure VerificationItem where
  jsonPath : String
  valid : Bool
  comment : String
  adjustedConfidence : Option ℚ := none
deriving DecidableEq, Repr

/-- Word character for the `\b` boundaries of the invalidity-keyword
regular expression. -/
def isWordCh (c : Char) : Bool :=
  isDigitCh c || (65 ≤ c.toNat && c.toNat ≤ 90) || (97 ≤ c.toNat && c.toNat ≤ 122) ||
    c.toNat = 95

/-- ASCII lowering for the case-insensitive flag. -/
def lowerCh (c : Char) : Char :=
  if 65 ≤ c.toNat && c.toNat ≤ 90 then Char.ofNat (c.toNat + 32) else c

/-- Consume a keyword case-insensitively; returns the remaining text. -/
def stripWordCI : List Char → List Char → Option (List Char)
  | [], rest => some rest
  | _ :: _, [] => none
  | w :: ws, c :: cs => if lowerCh c = w then stripWordCI ws cs else none

/-- A word boundary follows: end of text or a non-word character. -/
def wordEndOk : List Char → Bool
  | [] => true
  | c :: _ => !(isWordCh c)

/-- One of the four invalidity keywords starts here, ending at a word
boundary. -/
def anyKeywordAt (cs : List Char) : Bool :=
  ["invalid", "incorrect", "hallucination", "wrong"].any (fun w =>
    match stripWordCI w.data cs with
    | some rest => wordEndOk rest
    | none => false)

/-- Scan the text for a keyword occurrence preceded by a word boundary. -/
def commentScan : Option Char → List Char → Bool
  | _, [] => false
  | prev, c :: rest =>
      ((match prev with
        | some p => !(isWordCh p)
        | none => true) && anyKeywordAt (c :: rest))
      || commentScan (some c) rest

/-- Model of `/\b(invalid|incorrect|hallucination|wrong)\b/i.test(comment)`. -/
def commentInvalidKw (s : String) : Bool := commentScan none s.data

/-- Confidence after the only-downgrading application of
`adjustedConfidence`. -/
def adjustedConf (fact : Fact) (v : VerificationItem) : ℚ :=
  match v.adjustedConfidence with
  | some a => if a < fact.confidence then a else fact.confidence
  | none => fact.confidence

/-- The effective-validity decision of `runVerifierPass`: the verdict
flag, with leniency for inferred facts, is overridden by an invalidity
keyword in the comment or by a confidence collapse below the `0.2`
floor. -/
def verificationValid (fact : Fact) (v : VerificationItem) : Bool :=
  (v.valid || (decide (fact.sourceKind = SourceKind.inferred) && !commentInvalidKw v.comment))
    && !commentInvalidKw v.comment && !(decide (adjustedConf fact v < mkRat 1 5))

/-- Application of one verification reply to one fact
(`runVerifierPass`, the body of the `verifiedFacts` map). -/
def applyVerification (minConfidence : ℚ) (fact : Fact) (v : VerificationItem) : Fact :=
  if verificationValid fact v then { fact with confidence := adjustedConf fact v }
  else
    { fact with
      confidence := adjustedConf fact v
      gate := if adjustedConf fact v < minConfidence then Gate.requireTier else Gate.warn
      verifierNotes := some v.comment }

/-- Reply lookup by path (`allVerifications.find`). -/
def findVerification (vs : List VerificationItem) (p : String) : Option VerificationItem :=
  vs.find? (fun v => v.jsonPath = p)

/-- Per-fact step of the final map of `runVerifierPass`: a fact without a
matching reply is returned as-is. -/
def verifierMapFact (minConfidence : ℚ) (vs : List VerificationItem) (fact : Fact) : Fact :=
  match findVerification vs fact.jsonPath with
  | none => fact
  | some v => applyVerification minConfidence fact v

/-- Anchor cap applied before building the payload. -/
def maxAnchorsPerFact : Nat := 3

/-- The pre-validation split of `runVerifierPass`: facts whose anchors
have at least one available snippet go to the service payload (anchors
capped), the others are pre-invalidated locally with adjusted confidence
`0.5`. -/
def splitFacts (snippetOk : Anchor → Bool) :
    List Fact → List Fact × List VerificationItem
  | [] => ([], [])
  | f :: rest =>
      let (withSnips, pre) := splitFacts snippetOk rest
      let validAnchors := f.repoSources.filter snippetOk
      if 0 < validAnchors.length then
        (if maxAnchorsPerFact < validAnchors.length then
            { f with repoSources := validAnchors.take maxAnchorsPerFact } :: withSnips
          else f :: withSnips, pre)
      else
        (withSnips,
          { jsonPath := f.jsonPath, valid := false,
            comment := "Source snippet unavailable or file not found.",
            adjustedConfidence := some (mkRat 1 2) } :: pre)

/-- Facts selected for verification: only those with at least one
anchor. -/
def factsToVerify (facts : List Fact) : List Fact :=
  facts.filter (fun f => 0 < f.repoSources.length)

/-- Facts actually placed in the service payload. -/
def verifierPayload (snippetOk : Anchor → Bool) (facts : List Fact) : List Fact :=
  (splitFacts snippetOk (factsToVerify facts)).1

/-- Fact output of the verification pass, with the service replies passed
in as data: if nothing has anchors the pass is skipped entirely
(`createNoOpResult`); otherwise the pre-invalidated verdicts are
prepended to the parsed replies and applied fact-wise. -/
def runVerifierFacts (minConfidence : ℚ) (snippetOk : Anchor → Bool)
    (serviceReplies : List VerificationItem) (facts : List Fact) : List Fact :=
  let ftv := factsToVerify facts
  if ftv.length = 0 then facts
  else
    let pre := (splitFacts snippetOk ftv).2
    facts.map (verifierMapFact minConfidence (pre ++ serviceReplies))

/-! ## Claim C4 -/

theorem applyVerification_confidence_le (minConfidence : ℚ) (fact : Fact)
    (v : VerificationItem) :
    (applyVerification minConfidence fact v).confidence ≤ fact.confidence := by
  have hconf : (applyVerification minConfidence fact v).confidence = adjustedConf fact v := by
    rw [applyVerification]
    split <;> rfl
  rw [hconf, adjustedConf]
  rcases v.adjustedConfidence with _ | a
  · exact le_refl _
  · show (if a < fact.confidence then a else fact.confidence) ≤ fact.confidence
    by_cases hlt : a < fact.confidence
    · rw [if_pos hlt]
      exact le_of_lt hlt
    · rw [if_neg hlt]

theorem verifierMapFact_confidence_le (minConfidence : ℚ) (vs : List VerificationItem)
    (fact : Fact) :
    (verifierMapFact minConfidence vs fact).confidence ≤ fact.confidence := by
  rw [verifierMapFact]
  rcases findVerification vs fact.jsonPath with _ | v
  · exact le_refl _
  · exact applyVerification_confidence_le minConfidence fact v

/-- C4: confidence is monotonically non-increasing under verification.
Whatever replies the service returns and whichever snippets are
available, every fact leaving the pass has confidence at most its
confidence on entry — a reply's `adjustedConfidence` is applied only when
lower, never to raise. -/
theorem verifier_confidence_monotone (minConfidence : ℚ) (snippetOk : Anchor → Bool)
    (serviceReplies : List VerificationItem) (facts : List Fact) :
    List.Forall₂ (fun g f => g.confidence ≤ f.confidence)
      (runVerifierFacts minConfidence snippetOk serviceReplies facts) facts := by
  rw [runVerifierFacts]
  by_cases hempty : (factsToVerify facts).length = 0
  · simp only [hempty, if_true]
    exact List.forall₂_same.2 (fun f _ => le_refl _)
  · simp only [hempty, if_false]
    have hgen : ∀ (vs : List VerificationItem) (l : List Fact),
        List.Forall₂ (fun g f => g.confidence ≤ f.confidence)
          (l.map (verifierMapFact minConfidence vs)) l := by
      intro vs l
      induction l with
      | nil => simp
      | cons f fs ih => exact List.Forall₂.cons (verifierMapFact_confidence_le _ _ f) ih
    exact hgen _ facts

/-! ## Claim C5 -/

/-- Concrete anchor used by the verifier examples. -/
def anchorA : Anchor :=
  { path := "README.md", startLine := .fin 1, endLine := .fin 2, commit := "abc1234" }

/-- An inferred fact with a healthy confidence and an OK gate. -/
def factC5 : Fact :=
  { jsonPath := "$.mlCore.problem", sourceKind := .inferred,
    repoSources := [anchorA], confidence := mkRat 9 10, gate := .ok }

/-- A negative verdict whose free text contains no invalidity keyword. -/
def replyC5 : VerificationItem :=
  { jsonPath := "$.mlCore.problem", valid := false,
    comment := "Snippet does not mention this claim explicitly." }

/-- Counterexample to C5 as stated: for an inferred fact, a negative
verdict with a keyword-free comment and adequate confidence leaves the
gate at OK — the pass is deliberately lenient for inferred facts, so the
downgrade does not happen regardless of source kind. -/
theorem verifier_negative_verdict_keeps_ok_gate :
    replyC5.valid = false ∧ factC5.gate = Gate.ok ∧
      (runVerifierFacts (mkRat 13 20) (fun _ => true) [replyC5] [factC5]).map Fact.gate
        = [Gate.ok] := by
  refine ⟨rfl, rfl, ?_⟩
  decide

/-- C5 amended: the gate is downgraded to Warn — or to Require when the
post-adjustment confidence is below the run's minimum — and never stays
OK whenever the comment contains an invalidity keyword, or the
confidence has collapsed below the absolute floor `0.2`, or the verdict
is negative and the fact is not inferred; an inferred fact with only a
negative verdict is exempt. -/
theorem verifier_gate_downgrade (minConfidence : ℚ) (fact : Fact) (v : VerificationItem)
    (h : (v.valid = false ∧ fact.sourceKind ≠ SourceKind.inferred) ∨
      commentInvalidKw v.comment = true ∨ adjustedConf fact v < mkRat 1 5) :
    (applyVerification minConfidence fact v).gate =
      (if adjustedConf fact v < minConfidence then Gate.requireTier else Gate.warn) := by
  have hvalid : verificationValid fact v = false := by
    rw [verificationValid]
    rcases h with ⟨hv, hk⟩ | h | h
    · rcases hci : commentInvalidKw v.comment with _ | _
      · simp [hv, hk]
      · simp [hci]
    · simp [h]
    · simp [h]
  rw [applyVerification, hvalid]
  rfl

/-- Witness for the amended C5 at scenario C: a reply with `valid=true`
whose comment contains "this is incorrect" still downgrades the gate. -/
theorem verifier_gate_downgrade_witness :
    commentInvalidKw "this is incorrect" = true ∧
      (applyVerification (mkRat 13 20)
        { jsonPath := "$.meta.title", repoSources := [anchorA],
          confidence := mkRat 9 10, gate := .ok }
        { jsonPath := "$.meta.title", valid := true,
          comment := "this is incorrect" }).gate =
      (if adjustedConf
          { jsonPath := "$.meta.title", repoSources := [anchorA],
            confidence := mkRat 9 10, gate := .ok }
          { jsonPath := "$.meta.title", valid := true,
            comment := "this is incorrect" } < mkRat 13 20
        then Gate.requireTier else Gate.warn) :=
  ⟨by decide,
    verifier_gate_downgrade (mkRat 13 20)
      { jsonPath := "$.meta.title", repoSources := [anchorA],
        confidence := mkRat 9 10, gate := .ok }
      { jsonPath := "$.meta.title", valid := true, comment := "this is incorrect" }
      (Or.inr (Or.inl (by decide)))⟩

/-! ## Claim C8 -/

/-- A fact with no anchors at all. -/
def factC8 : Fact :=
  { jsonPath := "$.business.useCase", sourceKind := .extracted,
    repoSources := [], confidence := mkRat 9 10, gate := .ok }

/-- Counterexample to C8 as stated: a fact with zero anchors is not
pre-marked invalid — it is excluded from verification entirely and
leaves the pass unchanged, its gate still OK (here every fact lacks
anchors, so the pass short-circuits into the no-op result). -/
theorem verifier_zero_anchor_not_invalidated :
    factC8.repoSources = [] ∧
      runVerifierFacts (mkRat 13 20) (fun _ => true) [] [factC8] = [factC8] ∧
      ((runVerifierFacts (mkRat 13 20) (fun _ => true) [] [factC8]).map Fact.gate
        = [Gate.ok]) := by
  refine ⟨rfl, ?_, ?_⟩ <;> decide

/-- C8 amended: a fact with zero anchors never reaches the service — it
is absent from the verifier payload — and, provided no reply (from other
facts' paths) happens to carry its path, it passes through the
verification pass unchanged: no invalidation, no gate downgrade.  Facts
whose anchors have no available snippet are the ones pre-marked invalid
without a service call. -/
theorem verifier_zero_anchor_skipped (minConfidence : ℚ) (snippetOk : Anchor → Bool)
    (serviceReplies : List VerificationItem) (facts : List Fact) (f : Fact)
    (hf : f ∈ facts) (hempty : f.repoSources = [])
    (hnoreply : ∀ v ∈ serviceReplies, v.jsonPath ≠ f.jsonPath)
    (hnopre : ∀ g ∈ facts, g.jsonPath = f.jsonPath → g.repoSources = []) :
    f ∉ verifierPayload snippetOk facts ∧
      f ∈ runVerifierFacts minConfidence snippetOk serviceReplies facts := by
  have hftv : ∀ g ∈ factsToVerify facts, 0 < g.repoSources.length := by
    intro g hg
    have := List.of_mem_filter hg
    simpa using this
  constructor
  · intro hmem
    have hsplit : ∀ l : List Fact, (∀ g ∈ l, 0 < g.repoSources.length) →
        ∀ g ∈ (splitFacts snippetOk l).1, ∃ g₀ ∈ l, g.jsonPath = g₀.jsonPath ∧
          0 < g₀.repoSources.length := by
      intro l
      induction l with
      | nil => intro _ g hg; simp [splitFacts] at hg
      | cons a l ihl =>
          intro hl g hg
          rw [splitFacts] at hg
          simp only [] at hg
          by_cases hva : 0 < (a.repoSources.filter snippetOk).length
          · rw [if_pos hva] at hg
            by_cases hcap : maxAnchorsPerFact < (a.repoSources.filter snippetOk).length
            · rw [if_pos hcap] at hg
              rcases List.mem_cons.1 hg with hg | hg
              · exact ⟨a, by simp, by rw [hg], hl a (by simp)⟩
              · obtain ⟨g₀, hg₀, hpath, hpos⟩ :=
                  ihl (fun x hx => hl x (List.mem_cons_of_mem _ hx)) g hg
                exact ⟨g₀, List.mem_cons_of_mem _ hg₀, hpath, hpos⟩
            · rw [if_neg hcap] at hg
              rcases List.mem_cons.1 hg with hg | hg
              · exact ⟨a, by simp, by rw [hg], hl a (by simp)⟩
              · obtain ⟨g₀, hg₀, hpath, hpos⟩ :=
                  ihl (fun x hx => hl x (List.mem_cons_of_mem _ hx)) g hg
                exact ⟨g₀, List.mem_cons_of_mem _ hg₀, hpath, hpos⟩
          · rw [if_neg hva] at hg
            obtain ⟨g₀, hg₀, hpath, hpos⟩ :=
              ihl (fun x hx => hl x (List.mem_cons_of_mem _ hx)) g hg
            exact ⟨g₀, List.mem_cons_of_mem _ hg₀, hpath, hpos⟩
    obtain ⟨g₀, hg₀, hpath, hpos⟩ := hsplit (factsToVerify facts) hftv f hmem
    have hg₀facts : g₀ ∈ facts := List.mem_of_mem_filter hg₀
    have := hnopre g₀ hg₀facts hpath.symm
    rw [this] at hpos
    simp at hpos
  · rw [runVerifierFacts]
    by_cases hlen : (factsToVerify facts).length = 0
    · rw [if_pos hlen]
      exact hf
    · rw [if_neg hlen]
      have hfix : verifierMapFact minConfidence
          ((splitFacts snippetOk (factsToVerify facts)).2 ++ serviceReplies) f = f := by
        rw [verifierMapFact]
        have hfind : findVerification
            ((splitFacts snippetOk (factsToVerify facts)).2 ++ serviceReplies)
            f.jsonPath = none := by
          rw [findVerification, List.find?_eq_none]
          intro v hv
          rcases List.mem_append.1 hv with hv | hv
          · have hpre : ∀ l : List Fact, (∀ g ∈ l, 0 < g.repoSources.length) →
                ∀ v' ∈ (splitFacts snippetOk l).2, ∃ g₀ ∈ l, v'.jsonPath = g₀.jsonPath := by
              intro l
              induction l with
              | nil => intro _ v' hv'; simp [splitFacts] at hv'
              | cons a l ihl =>
                  intro hl v' hv'
                  rw [splitFacts] at hv'
                  simp only [] at hv'
                  by_cases hva : 0 < (a.repoSources.filter snippetOk).length
                  · rw [if_pos hva] at hv'
                    obtain ⟨g₀, hg₀, hpath⟩ :=
                      ihl (fun x hx => hl x (List.mem_cons_of_mem _ hx)) v' hv'
                    exact ⟨g₀, List.mem_cons_of_mem _ hg₀, hpath⟩
                  · rw [if_neg hva] at hv'
                    rcases List.mem_cons.1 hv' with hv' | hv'
                    · exact ⟨a, by simp, by rw [hv']⟩
                    · obtain ⟨g₀, hg₀, hpath⟩ :=
                        ihl (fun x hx => hl x (List.mem_cons_of_mem _ hx)) v' hv'
                      exact ⟨g₀, List.mem_cons_of_mem _ hg₀, hpath⟩
            obtain ⟨g₀, hg₀, hpath⟩ := hpre (factsToVerify facts) hftv v hv
            have hg₀facts : g₀ ∈ facts := List.mem_of_mem_filter hg₀
            simp only [decide_eq_true_eq]
            intro hcontra
            have h1 := hnopre g₀ hg₀facts (by rw [← hpath, hcontra])
            have h2 := hftv g₀ hg₀
            rw [h1] at h2
            simp at h2
          · simp only [decide_eq_true_eq]
            exact hnoreply v hv
        rw [hfind]
      exact hfix ▸ List.mem_map_of_mem _ hf

/-- Witness for the amended C8: a concrete mixed fact set where the
anchored fact is verified but the zero-anchor fact is skipped and
unchanged. -/
theorem verifier_zero_anchor_skipped_witness :
    factC8 ∉ verifierPayload (fun _ => true) [factC8, factC5] ∧
      factC8 ∈ runVerifierFacts (mkRat 13 20) (fun _ => true) [replyC5] [factC8, factC5] :=
  verifier_zero_anchor_skipped (mkRat 13 20) (fun _ => true) [replyC5] [factC8, factC5]
    factC8 (by decide) rfl (by decide) (by decide)

/-! ## Extraction-pass merge (`scripts/src/llm/extractor.ts`) -/

/-- Loosely-shaped anchor as parsed from a service response.  Fields whose
runtime type does not match the checks in the source (`typeof ... ===
"string"` and `typeof ... === "number"`) are modelled as absent. -/
structure RawAnchorPayload where
  path : Option String := none
  startLine : Option JNum := none
  endLine : Option JNum := none
  commit : Option String := none
  kind : Option String := none
deriving DecidableEq, Repr

/-- Loosely-shaped fact candidate as parsed from a service response
(`RawFactPayload`).  `confidence` keeps its raw number so that the
finiteness check of `normalizeConfidence` is observable. -/
structure RawFactPayload where
  jsonPath : Option String := none
  jsonPointer : Option String := none
  proposedValue : Option JVal := none
  currentValue : Option JVal := none
  repoSources : Option (List RawAnchorPayload) := none
  confidence : Option JNum := none
  gate : Option Gate := none
  verifierNotes : Option String := none
  sourceKind : Option SourceKind := none
deriving DecidableEq, Repr

/-- Prefix test on strings. -/
def strStarts (pre s : String) : Bool := s.data.take pre.data.length == pre.data

/-- Suffix test on strings. -/
def endsWithStr (suf s : String) : Bool :=
  s.data.reverse.take suf.data.length == suf.data.reverse

/-- Hexadecimal digit. -/
def isHexCh (c : Char) : Bool :=
  isDigitCh c || (97 ≤ c.toNat && c.toNat ≤ 102) || (65 ≤ c.toNat && c.toNat ≤ 70)

/-- Model of `SHA_REGEX`, the anchored pattern of 7 to 40 hex digits. -/
def shaRegexMatch (s : String) : Bool :=
  (7 ≤ s.data.length && s.data.length ≤ 40) && s.data.all isHexCh

/-- The `VALID_KINDS` list. -/
def validKinds : List String := ["code", "openapi", "metrics", "docs", "config", "test"]

/-- Kind derived from the anchor path's extension. -/
def extKind (path : String) : String :=
  if endsWithStr ".md" path then "docs"
  else if endsWithStr ".json" path || endsWithStr ".yaml" path then "config"
  else "code"

/-- The helper `normalizeAnchors` of the extractor: keep anchors with a
string path, default the commit to the head SHA when missing or not
SHA-shaped, validate or derive the kind, default line numbers, and drop
empty paths. -/
def normalizeAnchors (anchors : List RawAnchorPayload) (headSha : String) : List Anchor :=
  ((anchors.filter (fun a => a.path.isSome)).map (fun a =>
    let path := a.path.getD ""
    let commit0 := a.commit.getD headSha
    { path := path
      startLine := a.startLine.getD (.fin 1)
      endLine := a.endLine.getD (a.startLine.getD (.fin 1))
      commit := if shaRegexMatch commit0 then commit0 else headSha
      kind := some (match a.kind with
        | some k => if validKinds.contains k then k else extKind path
        | none => extKind path) } )).filter (fun an => an.path.length ≠ 0)

/-- Clamping coercion `normalizeConfidence`: a finite number is clamped
into `[0, 1]`; anything else (including NaN and the infinities) falls
back. -/
def normalizeConfidence (value : Option JNum) (fallback : ℚ) : ℚ :=
  match value with
  | some (.fin q) => if q < 0 then 0 else if 1 < q then 1 else q
  | _ => fallback

/-- The gate ladder `computeGate`. -/
def computeGate (confidence : ℚ) : Gate :=
  if mkRat 4 5 ≤ confidence then .ok
  else if mkRat 13 20 ≤ confidence then .warn
  else .requireTier

/-- The deterministic-only path markers `DETERMINISTIC_ONLY_PREFIXES`. -/
def detOnlyStarts : List String :=
  ["$.provenance.changelog", "$.meta.createdAt", "$.meta.lastUpdated", "$.ai."]

/-- A path owned exclusively by the deterministic pipeline. -/
def isDetOnly (p : String) : Bool := detOnlyStarts.any (fun pre => strStarts pre p)

/-- JavaScript `Map.set` on a list in insertion order: replace in place
or append. -/
def mapSet (m : List Fact) (f : Fact) : List Fact :=
  match m with
  | [] => [f]
  | g :: rest => if g.jsonPath = f.jsonPath then f :: rest else g :: mapSet rest f

/-- JavaScript `Map.get` keyed by `jsonPath`. -/
def mapGet (m : List Fact) (p : String) : Option Fact :=
  m.find? (fun g => g.jsonPath = p)

/-- Derive a JSON pointer from a JSONPath, as the extractor does when the
candidate omits the pointer: strip a leading `$.`, turn dots into
slashes, turn `[n]` into `/n`, and ensure a leading slash.  The first
argument is recursion fuel for the bracket scanner. -/
def replBrackets : Nat → List Char → List Char
  | 0, cs => cs
  | _ + 1, [] => []
  | fuel + 1, c :: rest =>
      if c = '[' then
        let ds := rest.takeWhile isDigitCh
        let rest' := rest.drop ds.length
        match rest' with
        | ']' :: tail => if ds.isEmpty then c :: replBrackets fuel rest
            else '/' :: (ds ++ replBrackets fuel tail)
        | _ => c :: replBrackets fuel rest
      else c :: replBrackets fuel rest

/-- Pointer derivation from a JSONPath. -/
def derivePointer (jsonPath : String) : String :=
  let cs := jsonPath.data
  let cs := match cs with
    | '$' :: '.' :: rest => rest
    | '$' :: rest => rest
    | rest => rest
  let cs := cs.map (fun c => if c = '.' then '/' else c)
  let cs := replBrackets (cs.length + 1) cs
  match cs with
  | '/' :: _ => cs.asString
  | _ => ('/' :: cs).asString

/-- Nullish coalescing on document values: JavaScript `??` falls through
on both `undefined` and `null`. -/
def nullishOr (a b : Option JVal) : Option JVal :=
  match a with
  | none => b
  | some .null => b
  | some v => some v

/-- The body of the candidate loop of `mergeFacts`: skip candidates
without a path or at deterministic-only paths; insert a new path only
with a pointer (deriving one from the path when the candidate omits or
empties it) and at least one normalized anchor; update an existing path
field-by-field. -/
def mergeStep (headSha : String) (m : List Fact) (candidate : RawFactPayload) : List Fact :=
  match candidate.jsonPath with
  | none => m
  | some jp =>
      if isDetOnly jp then m
      else
        match mapGet m jp with
        | none =>
            if (normalizeAnchors (candidate.repoSources.getD []) headSha).length = 0 then m
            else
              mapSet m
                { jsonPath := jp
                  jsonPointer := some (match candidate.jsonPointer with
                    | some ptr => if ptr = "" then derivePointer jp else ptr
                    | none => derivePointer jp)
                  currentValue := candidate.currentValue
                  proposedValue := candidate.proposedValue
                  sourceKind := candidate.sourceKind.getD .extracted
                  repoSources := normalizeAnchors (candidate.repoSources.getD []) headSha
                  confidence := normalizeConfidence candidate.confidence (mkRat 3 4)
                  gate := candidate.gate.getD
                    (computeGate (normalizeConfidence candidate.confidence (mkRat 3 4)))
                  verifierNotes := candidate.verifierNotes }
        | some existing =>
            mapSet m
              { jsonPath := existing.jsonPath
                jsonPointer := candidate.jsonPointer.orElse (fun _ => existing.jsonPointer)
                currentValue := existing.currentValue
                proposedValue := nullishOr candidate.proposedValue existing.proposedValue
                sourceKind := candidate.sourceKind.getD existing.sourceKind
                repoSources := if 0 < (normalizeAnchors (candidate.repoSources.getD [])
                      headSha).length
                  then normalizeAnchors (candidate.repoSources.getD []) headSha
                  else existing.repoSources
                confidence := normalizeConfidence candidate.confidence existing.confidence
                gate := candidate.gate.getD
                  (computeGate (normalizeConfidence candidate.confidence existing.confidence))
                verifierNotes := candidate.verifierNotes.orElse
                  (fun _ => existing.verifierNotes) }

/-- The function `mergeFacts` of the extractor: an empty candidate list
returns the baseline untouched; otherwise the baseline seeds a map keyed
by path, candidates are merged in order, and the values are emitted
sorted by path. -/
def mergeFacts (env : JsEnv) (rawFacts : List RawFactPayload) (baselineFacts : List Fact)
    (headSha : String) : List Fact :=
  if rawFacts.length = 0 then baselineFacts
  else
    let map0 := baselineFacts.foldl (fun m fact => mapSet m fact) []
    let map1 := rawFacts.foldl (fun m candidate => mergeStep headSha m candidate) map0
    stableSort (fun a b => ordLe (env.kCmp a.jsonPath b.jsonPath)) map1

/-! ## Reasoning-pass reconciliation (`scripts/src/llm/reasoner.ts`) -/

/-- A partial fact patch as parsed from a reasoner response.  As in the
source, the confidence is stored raw whenever it is a number; a NaN or
infinite candidate also passes the `typeof` check there and would be
stored raw, but is not representable in the rational model and is
treated as keeping the existing value. -/
structure FactPatch where
  jsonPath : Option String := none
  jsonPointer : Option String := none
  proposedValue : Option JVal := none
  repoSources : Option (List RawAnchorPayload) := none
  confidence : Option JNum := none
  gate : Option Gate := none
  verifierNotes : Option String := none
deriving DecidableEq, Repr

/-- Rebuild of one patched anchor inside `reconcileFacts`, with the
first existing anchor as the fallback for each field. -/
def reconcileAnchor (existing : Fact) (headSha : String) (a : RawAnchorPayload) : Anchor :=
  let ex0 := existing.repoSources.head?
  let commit0 := a.commit.getD ((ex0.map Anchor.commit).getD headSha)
  let kindFromPath :=
    match a.path with
    | some p => if endsWithStr ".md" p then "docs"
        else if endsWithStr ".json" p || endsWithStr ".yaml" p then "config"
        else "code"
    | none => "code"
  { path := a.path.getD ((ex0.map Anchor.path).getD "")
    startLine := a.startLine.getD ((ex0.map Anchor.startLine).getD (.fin 1))
    endLine := a.endLine.getD ((ex0.map Anchor.endLine).getD (.fin 1))
    commit := if shaRegexMatch commit0 then commit0 else headSha
    kind := some (match a.kind.orElse (fun _ => ex0.bind Anchor.kind) with
      | some k => if validKinds.contains k then k else kindFromPath
      | none => kindFromPath) }

/-- The body of the patch loop of `reconcileFacts`: patches without a
path or whose path is not already present are dropped; an existing fact
is updated field-by-field, anchors replacing only when the patch brings
a non-empty list, and the confidence stored raw whenever the patch
supplies a number — with no finiteness or range check. -/
def reconcileStep (headSha : String) (m : List Fact) (patch : FactPatch) : List Fact :=
  match patch.jsonPath with
  | none => m
  | some jp =>
      match mapGet m jp with
      | none => m
      | some existing =>
          let newAnchors := match patch.repoSources with
            | some ps => if 0 < ps.length then ps.map (reconcileAnchor existing headSha)
                else existing.repoSources
            | none => existing.repoSources
          mapSet m
            { existing with
              jsonPointer := patch.jsonPointer.orElse (fun _ => existing.jsonPointer)
              proposedValue := nullishOr patch.proposedValue existing.proposedValue
              repoSources := newAnchors
              confidence := match patch.confidence with
                | some (.fin q) => q
                | _ => existing.confidence
              gate := patch.gate.getD existing.gate
              verifierNotes := patch.verifierNotes.orElse (fun _ => existing.verifierNotes) }

/-- The function `reconcileFacts` of the reasoner. -/
def reconcileFacts (env : JsEnv) (baseFacts : List Fact) (patches : List FactPatch)
    (headSha : String) : List Fact :=
  let map0 := baseFacts.foldl (fun m fact => mapSet m fact) []
  let map1 := patches.foldl (fun m patch => reconcileStep headSha m patch) map0
  stableSort (fun a b => ordLe (env.kCmp a.jsonPath b.jsonPath)) map1

/-! ## Deterministic-baseline fact guard (`scripts/src/pipeline/deterministic.ts`) -/

/-- A draft fact of the deterministic pipeline before conversion. -/
structure DraftFact where
  jsonPath : String
  jsonPointer : String
  proposedValue : Option JVal := none
  currentValue : Option JVal := none
  anchors : Option (List Anchor) := none
  confidence : ℚ := 0
  sourceKind : SourceKind := .extracted
  gate : Option Gate := none
  verifierNotes : Option String := none
deriving Repr

/-- The helper `toFact` of the deterministic pipeline: derive the gate
from confidence unless overridden and stamp every anchor with the head
SHA. -/
def toFact (draft : DraftFact) (headSha : String) : Fact :=
  { jsonPath := draft.jsonPath
    jsonPointer := some draft.jsonPointer
    currentValue := draft.currentValue
    proposedValue := draft.proposedValue
    sourceKind := draft.sourceKind
    repoSources := (draft.anchors.getD []).map (fun a => { a with commit := headSha })
    confidence := draft.confidence
    gate := draft.gate.getD
      (if mkRat 4 5 ≤ draft.confidence then .ok
        else if mkRat 13 20 ≤ draft.confidence then .warn
        else .requireTier)
    verifierNotes := draft.verifierNotes }

/-- Split a character list on slashes. -/
def splitSlash : List Char → List (List Char)
  | [] => [[]]
  | c :: rest =>
      if c = '/' then [] :: splitSlash rest
      else
        match splitSlash rest with
        | [] => [[c]]
        | seg :: segs => (c :: seg) :: segs

/-- JSON-pointer token unescaping: `~1` becomes `/` and `~0` becomes `~`. -/
def unescapeTok : List Char → List Char
  | [] => []
  | '~' :: '1' :: rest => '/' :: unescapeTok rest
  | '~' :: '0' :: rest => '~' :: unescapeTok rest
  | c :: rest => c :: unescapeTok rest

/-- Pointer tokens: split on `/`, drop the leading empty segment, and
unescape. -/
def pointerTokens (pointer : String) : List String :=
  ((splitSlash pointer.data).drop 1).map (fun seg => (unescapeTok seg).asString)

/-- An all-digits, non-empty token (the `/^[0-9]+$/` test for array
creation). -/
def isNumericTok (t : String) : Bool := !t.data.isEmpty && t.data.all isDigitCh

/-- Update or append an entry in an object's property list. -/
def assocSet (fs : List (String × JVal)) (k : String) (x : JVal) : List (String × JVal) :=
  match fs with
  | [] => [(k, x)]
  | (k', v) :: rest => if k' = k then (k, x) :: rest else (k', v) :: assocSet rest k x

/-- Decimal value of an all-digit token (the array index a numeric token
denotes). -/
def tokNat (t : String) : Nat := t.data.foldl (fun n c => n * 10 + (c.toNat - 48)) 0

/-- Property write `cursor[token] = x`.  On an object the property is set
or appended; on an array a numeric index is set, extending with nulls
(JavaScript holes serialize as null); writes to primitives are silently
ignored, as in JavaScript non-strict mode. -/
def setProp (v : JVal) (k : String) (x : JVal) : JVal :=
  match v with
  | .obj fs => .obj (assocSet fs k x)
  | .arr xs =>
      if isNumericTok k then
        let i := tokNat k
        if i < xs.length then .arr (xs.set i x)
        else .arr (xs ++ List.replicate (i - xs.length) .null ++ [x])
      else .arr xs
  | other => other

/-- Membership test `token in cursor`. -/
def hasProp (v : JVal) (k : String) : Bool :=
  match v with
  | .obj fs => (assocFind fs k).isSome
  | .arr xs => isNumericTok k && tokNat k < xs.length
  | _ => false

/-- Property read used while walking the pointer. -/
def getProp (v : JVal) (k : String) : JVal :=
  match v with
  | .obj fs => (assocFind fs k).getD .null
  | .arr xs => if isNumericTok k && tokNat k < xs.length then xs[tokNat k]! else .null
  | _ => .null

/-- The walking loop of `applyJsonPointer` in
`scripts/src/pipeline/deterministic.ts`: the last token assigns, a
missing intermediate container is created as an array exactly when the
next token is numeric, and a non-array value at an array position is
replaced by an empty array. -/
def setTokens : JVal → List String → JVal → JVal
  | cur, [], _ => cur
  | cur, [t], v => setProp cur t v
  | cur, t :: next :: rest, v =>
      let shouldBeArray := isNumericTok next
      let child0 := if !hasProp cur t then (if shouldBeArray then JVal.arr [] else JVal.obj [])
        else getProp cur t
      let child := if shouldBeArray then
          (match child0 with
            | .arr xs => JVal.arr xs
            | _ => JVal.arr [])
        else child0
      setProp cur t (setTokens child (next :: rest) v)

/-- Functional model of `applyJsonPointer`. -/
def applyJsonPointer (target : JVal) (pointer : String) (value : JVal) : JVal :=
  setTokens target (pointerTokens pointer) value

/-- The guard `addFact` of `buildFactsAndMutations`: a draft whose anchor
list is missing or empty produces no fact and no mutation; otherwise the
value is written through the pointer and the converted fact appended. -/
def addFact (headSha : String) (state : JVal × List Fact) (draft : DraftFact) :
    JVal × List Fact :=
  match draft.anchors with
  | none => state
  | some [] => state
  | some _ =>
      (applyJsonPointer state.1 draft.jsonPointer (draft.proposedValue.getD .null),
        state.2 ++ [toFact draft headSha])

/-! ## Claim C3 -/

theorem mem_mapSet (f : Fact) : ∀ m : List Fact, ∀ g ∈ mapSet m f, g = f ∨ g ∈ m
  | [], g, hg => by
      rw [mapSet] at hg
      exact .inl (List.mem_singleton.1 hg)
  | a :: m, g, hg => by
      rw [mapSet] at hg
      by_cases hpath : a.jsonPath = f.jsonPath
      · rw [if_pos hpath] at hg
        rcases List.mem_cons.1 hg with hg | hg
        · exact .inl hg
        · exact .inr (List.mem_cons_of_mem _ hg)
      · rw [if_neg hpath] at hg
        rcases List.mem_cons.1 hg with hg | hg
        · exact .inr (by simp [hg])
        · rcases mem_mapSet f m g hg with hg | hg
          · exact .inl hg
          · exact .inr (List.mem_cons_of_mem _ hg)

theorem mapGet_mem {m : List Fact} {p : String} {g : Fact} (h : mapGet m p = some g) :
    g ∈ m :=
  List.mem_of_find?_eq_some h

theorem mapGet_path {m : List Fact} {p : String} {g : Fact} (h : mapGet m p = some g) :
    g.jsonPath = p := by
  have := List.find?_some h
  simpa using this

theorem foldl_mapSet_mem (l : List Fact) :
    ∀ m0 : List Fact, ∀ g ∈ l.foldl (fun m fact => mapSet m fact) m0, g ∈ l ∨ g ∈ m0 := by
  induction l with
  | nil => intro m0 g hg; exact .inr hg
  | cons a l ih =>
      intro m0 g hg
      rw [List.foldl_cons] at hg
      rcases ih (mapSet m0 a) g hg with hg | hg
      · exact .inl (List.mem_cons_of_mem _ hg)
      · rcases mem_mapSet a m0 g hg with hg | hg
        · exact .inl (by simp [hg])
        · exact .inr hg

/-- Invariant preservation by one merge step: every map entry keeps at
least one anchor. -/
theorem mergeStep_anchors (headSha : String) (m : List Fact) (c : RawFactPayload)
    (hm : ∀ g ∈ m, g.repoSources ≠ []) :
    ∀ g ∈ mergeStep headSha m c, g.repoSources ≠ [] := by
  intro g hg
  rw [mergeStep] at hg
  split at hg
  · exact hm g hg
  · split at hg
    · exact hm g hg
    · split at hg
      · split at hg
        · exact hm g hg
        · next hlen =>
            rcases mem_mapSet _ m g hg with hg | hg
            · subst hg
              show (normalizeAnchors (c.repoSources.getD []) headSha) ≠ []
              intro hcontra
              exact hlen (by simp [hcontra])
            · exact hm g hg
      · next existing hget =>
          rcases mem_mapSet _ m g hg with hg | hg
          · subst hg
            show (if 0 < (normalizeAnchors (c.repoSources.getD []) headSha).length
              then normalizeAnchors (c.repoSources.getD []) headSha
              else existing.repoSources) ≠ []
            by_cases hlen : 0 < (normalizeAnchors (c.repoSources.getD []) headSha).length
            · rw [if_pos hlen]
              intro hcontra
              rw [hcontra] at hlen
              simp at hlen
            · rw [if_neg hlen]
              exact hm existing (mapGet_mem hget)
          · exact hm g hg

/-- C3: every fact in a persisted proposal has at least one anchor.
Conjuncts: (1) the extraction merge preserves the invariant from an
anchored baseline; (2) a candidate at a new path whose normalized anchor
list is empty is dropped rather than inserted; (3) at an existing path,
the candidate anchors replace the existing ones exactly when non-empty;
(4) a deterministic-baseline rule with no evidence anchors emits no fact
(and no mutation) at all. -/
theorem proposal_anchor_invariant (env : JsEnv) (rawFacts : List RawFactPayload)
    (baselineFacts : List Fact) (headSha : String)
    (hbase : ∀ b ∈ baselineFacts, b.repoSources ≠ []) :
    (∀ f ∈ mergeFacts env rawFacts baselineFacts headSha, f.repoSources ≠ []) ∧
    (∀ (m : List Fact) (c : RawFactPayload) (jp : String), c.jsonPath = some jp →
      isDetOnly jp = false → mapGet m jp = none →
      (normalizeAnchors (c.repoSources.getD []) headSha).length = 0 →
      mergeStep headSha m c = m) ∧
    (∀ (m : List Fact) (c : RawFactPayload) (jp : String) (existing : Fact),
      c.jsonPath = some jp → isDetOnly jp = false → mapGet m jp = some existing →
      ∃ f', mergeStep headSha m c = mapSet m f' ∧
        f'.repoSources = (if 0 < (normalizeAnchors (c.repoSources.getD []) headSha).length
          then normalizeAnchors (c.repoSources.getD []) headSha
          else existing.repoSources)) ∧
    (∀ (sha : String) (state : JVal × List Fact) (draft : DraftFact),
      draft.anchors = none ∨ draft.anchors = some [] → addFact sha state draft = state) := by
  refine ⟨?_, ?_, ?_, ?_⟩
  · intro f hf
    rw [mergeFacts] at hf
    by_cases hraw : rawFacts.length = 0
    · rw [if_pos hraw] at hf
      exact hbase f hf
    · rw [if_neg hraw] at hf
      simp only [] at hf
      have hmap0 : ∀ g ∈ baselineFacts.foldl (fun m fact => mapSet m fact) [], g.repoSources ≠ [] := by
        intro g hg
        rcases foldl_mapSet_mem baselineFacts [] g hg with hg | hg
        · exact hbase g hg
        · simp at hg
      have hfold : ∀ (cs : List RawFactPayload) (m : List Fact),
          (∀ g ∈ m, g.repoSources ≠ []) →
          ∀ g ∈ cs.foldl (fun m candidate => mergeStep headSha m candidate) m,
            g.repoSources ≠ [] := by
        intro cs
        induction cs with
        | nil => intro m hm g hg; exact hm g hg
        | cons c cs ih =>
            intro m hm g hg
            rw [List.foldl_cons] at hg
            exact ih (mergeStep headSha m c) (mergeStep_anchors headSha m c hm) g hg
      exact hfold rawFacts _ hmap0 f (mem_of_mem_stableSort _ _ f hf)
  · intro m c jp hjp hdet hget hlen
    rw [mergeStep, hjp]
    simp only [hdet, hget, hlen, Bool.false_eq_true, if_false, if_true]
  · intro m c jp existing hjp hdet hget
    rw [mergeStep, hjp]
    simp only [hdet, hget, Bool.false_eq_true, if_false]
    exact ⟨_, rfl, rfl⟩
  · intro sha state draft h
    rcases h with h | h <;> rw [addFact, h]

/-- A concrete anchored baseline fact for the C3 witness. -/
def factW3 : Fact :=
  { jsonPath := "$.business.useCase", repoSources := [anchorA],
    confidence := mkRat 9 10, gate := .ok }

/-- A concrete anchorless candidate for the C3 witness. -/
def rawW3 : RawFactPayload :=
  { jsonPath := some "$.meta.title", proposedValue := some (.str "x"),
    repoSources := some [] }

/-- Witness for C3: the anchor invariant applied at a concrete baseline
and candidate list; the surviving merged fact keeps its anchors. -/
theorem proposal_anchor_invariant_witness : factW3.repoSources ≠ [] :=
  (proposal_anchor_invariant envW [rawW3] [factW3] "abc1234"
      (by intro b hb; rcases List.mem_singleton.1 hb with rfl; decide)).1
    factW3 (by decide)

/-! ## Claim C6 -/

/-- An existing fact at a non-deterministic path with confidence 0.8. -/
def baseFactUseCase : Fact :=
  { jsonPath := "$.business.useCase", jsonPointer := some "/business/useCase",
    proposedValue := some (.str "original"), repoSources := [anchorA],
    confidence := mkRat 4 5, gate := .ok }

/-- A reasoner patch proposing confidence 1.7 for that fact. -/
def patch17 : FactPatch :=
  { jsonPath := some "$.business.useCase", confidence := some (.fin (mkRat 17 10)) }

/-- C6 evaluated at the failing input: `reconcileFacts` stores the
candidate confidence 1.7 raw — there is no finiteness or range check in
the reasoning pass, so the stored confidence is 1.7 and not the clamped
1.0 the specification requires; the extractor's `normalizeConfidence`,
by contrast, clamps the same candidate to 1. -/
theorem reconcile_stores_unclamped_confidence :
    (reconcileFacts envW [baseFactUseCase] [patch17] "abc1234").map Fact.confidence
        = [mkRat 17 10] ∧
      mkRat 17 10 ≠ 1 ∧
      normalizeConfidence (some (.fin (mkRat 17 10))) (mkRat 4 5) = 1 := by
  refine ⟨?_, ?_, ?_⟩ <;> decide

/-! ## Claim C7 -/

/-- One merge step preserves the property that entries at
deterministic-only paths come from a reference set: candidates at such
paths are skipped, and inserts or updates only ever target paths outside
the deterministic-only family. -/
theorem mergeStep_detOnly_preserved (headSha : String) (m : List Fact) (c : RawFactPayload)
    (B : List Fact) (hm : ∀ g ∈ m, isDetOnly g.jsonPath = true → g ∈ B) :
    ∀ g ∈ mergeStep headSha m c, isDetOnly g.jsonPath = true → g ∈ B := by
  intro g hg hdet
  rw [mergeStep] at hg
  split at hg
  · exact hm g hg hdet
  · split at hg
    · exact hm g hg hdet
    · next hdetjp =>
        split at hg
        · split at hg
          · exact hm g hg hdet
          · rcases mem_mapSet _ m g hg with hg | hg
            · subst hg
              exact absurd hdet hdetjp
            · exact hm g hg hdet
        · next existing hget =>
            rcases mem_mapSet _ m g hg with hg | hg
            · subst hg
              have hpath := mapGet_path hget
              have hfalse : isDetOnly existing.jsonPath = true := hdet
              rw [hpath] at hfalse
              exact absurd hfalse hdetjp
            · exact hm g hg hdet

/-- C7 amended, extraction side: a fact at a deterministic-only path in
the merged output is one of the baseline facts — candidate values for
such paths are always discarded by the extraction pass. -/
theorem mergeFacts_detOnly_protected (env : JsEnv) (rawFacts : List RawFactPayload)
    (baselineFacts : List Fact) (headSha : String) :
    ∀ f ∈ mergeFacts env rawFacts baselineFacts headSha,
      isDetOnly f.jsonPath = true → f ∈ baselineFacts := by
  intro f hf hdet
  rw [mergeFacts] at hf
  by_cases hraw : rawFacts.length = 0
  · rw [if_pos hraw] at hf
    exact hf
  · rw [if_neg hraw] at hf
    simp only [] at hf
    have hmap0 : ∀ g ∈ baselineFacts.foldl (fun m fact => mapSet m fact) [],
        isDetOnly g.jsonPath = true → g ∈ baselineFacts := by
      intro g hg _
      rcases foldl_mapSet_mem baselineFacts [] g hg with hg | hg
      · exact hg
      · simp at hg
    have hfold : ∀ (cs : List RawFactPayload) (m : List Fact),
        (∀ g ∈ m, isDetOnly g.jsonPath = true → g ∈ baselineFacts) →
        ∀ g ∈ cs.foldl (fun m candidate => mergeStep headSha m candidate) m,
          isDetOnly g.jsonPath = true → g ∈ baselineFacts := by
      intro cs
      induction cs with
      | nil => intro m hm g hg; exact hm g hg
      | cons c cs ih =>
          intro m hm g hg
          rw [List.foldl_cons] at hg
          exact ih (mergeStep headSha m c)
            (mergeStep_detOnly_preserved headSha m c baselineFacts hm) g hg
    exact hfold rawFacts _ hmap0 f (mem_of_mem_stableSort _ _ f hf) hdet

/-- A deterministic changelog fact as seeded by the baseline. -/
def baseFactChangelog : Fact :=
  { jsonPath := "$.provenance.changelog[0]", jsonPointer := some "/provenance/changelog/0",
    proposedValue := some (.str "run entry"), repoSources := [anchorA],
    confidence := mkRat 9 10, gate := .ok }

/-- A reasoner patch targeting the deterministic-only changelog path. -/
def patchChangelog : FactPatch :=
  { jsonPath := some "$.provenance.changelog[0]",
    proposedValue := some (.str "overridden by service") }

/-- Counterexample to C7 as stated: the reasoning pass has no
deterministic-only guard, so a candidate patch at the deterministic-only
changelog path replaces the proposed value — the candidate's value
appears unmodified in the reconciled output. -/
theorem reconcile_overrides_detOnly_path :
    isDetOnly "$.provenance.changelog[0]" = true ∧
      (reconcileFacts envW [baseFactChangelog] [patchChangelog] "abc1234").map
          Fact.proposedValue
        = [some (.str "overridden by service")] := by
  constructor <;> decide

/-- Witness for the amended C7: the extraction pass discards a candidate
at the deterministic-only changelog path, keeping the baseline fact. -/
theorem mergeFacts_detOnly_protected_witness :
    isDetOnly baseFactChangelog.jsonPath = true ∧
      baseFactChangelog ∈ [baseFactChangelog] :=
  ⟨by decide,
    mergeFacts_detOnly_protected envW
      [{ jsonPath := some "$.provenance.changelog[0]",
         proposedValue := some (.str "overridden by service"),
         repoSources := some [{ path := some "README.md" }] }]
      [baseFactChangelog] "abc1234" baseFactChangelog (by decide) (by decide)⟩

/-! ## Deterministic pipeline: `buildFactsAndMutations`
(`src/unnamed/part_009`) -/

/-- Property read `cursor[token]`, with `none` modelling `undefined`. -/
def jsIndexOpt (v : JVal) (k : String) : Option JVal :=
  match v with
  | .obj fs => assocFind fs k
  | .arr xs => if isNumericTok k && tokNat k < xs.length then some xs[tokNat k]! else none
  | _ => none

/-- The walking loop of `getValueAtPointer`: a `null` or `undefined`
cursor with tokens left gives `undefined`. -/
def getTokens : Option JVal → List String → Option JVal
  | cur, [] => cur
  | none, _ :: _ => none
  | some .null, _ :: _ => none
  | some v, t :: rest => getTokens (jsIndexOpt v t) rest

/-- `getValueAtPointer` of the deterministic pipeline. -/
def getValueAtPointer (target : JVal) (pointer : String) : Option JVal :=
  getTokens (some target) (pointerTokens pointer)

/-- The inputs produced by the repository analysis
(`RepositoryInsights` of `src/unnamed/part_000`); anchors carry a
placeholder commit, which `toFact` overwrites with the head SHA. -/
structure RepositoryInsights where
  runId : String
  headSha : String
  useCase : String
  intendedUse : String
  nonGoals : List String
  outOfScopeUse : List String
  repositoryUrl : Option String
  languages : List String
  entrypoints : List String
  components : List JVal
  dependencyHighlights : List String
  testsPresent : Bool
  coverageHint : Option String
  problemSummary : String
  userPopulations : List String
  dataFlow : List String
  governancePolicies : List String
  anchorMap : List (String × List Anchor)
deriving Repr

/-- Lookup in the anchor map (`context.anchorMap[key]`); `none` models a
missing key. -/
def amGet (m : List (String × List Anchor)) (k : String) : Option (List Anchor) :=
  match m.find? (fun e => e.1 == k) with
  | some e => some e.2
  | none => none

/-- A string list as a JSON array value. -/
def strsVal (xs : List String) : JVal := .arr (xs.map .str)

/-- The fields of an object value (empty for every other value). -/
def objFields (v : JVal) : List (String × JVal) :=
  match v with
  | .obj fs => fs
  | _ => []

/-- `buildChangelogFacts`: reuse the mutated card's changelog array if it
is one, append a run entry when files changed, and emit the changelog
fact with a confidence derived from the change volume.  The entry's
`new Date().toISOString()` is the `nowIso` input. -/
def buildChangelogFacts (mutated baseline : JVal) (changedFiles : List String)
    (context : RepositoryInsights) (nowIso : String) : JVal × List Fact :=
  let changelog : List JVal :=
    match (getFieldOpt mutated "provenance").bind (fun p => getFieldOpt p "changelog") with
    | some (.arr xs) => xs
    | _ => []
  let provFs := objFields ((getFieldOpt mutated "provenance").getD .null)
  if changedFiles.length = 0 then
    (.obj (assocSet (objFields mutated) "provenance"
        (.obj (assocSet provFs "changelog" (.arr changelog)))), [])
  else
    let entry : JVal := .obj
      [("date", .str nowIso),
        ("summary", .str ("ML System Card run " ++ context.runId ++ " observed "
          ++ natStr changedFiles.length ++ " changed files")),
        ("files", .arr (changedFiles.map (fun p => .obj [("path", .str p)]))),
        ("runId", .str context.runId),
        ("headSha", .str context.headSha)]
    let changelog1 := changelog ++ [entry]
    let card : JVal := .obj (assocSet (objFields mutated) "provenance"
      (.obj (assocSet provFs "changelog" (.arr changelog1))))
    let index := changelog1.length - 1
    let confidence : ℚ := min (mkRat 19 20)
      (mkRat 7 10 + ((max 0 (5 - (changedFiles.length : ℤ)) : ℤ) : ℚ) * mkRat 1 20)
    let gate : Gate := if mkRat 4 5 ≤ confidence then .ok
      else if mkRat 13 20 ≤ confidence then .warn else .requireTier
    let ptr := "/provenance/changelog/" ++ natStr index
    (card,
      [{ jsonPath := "$.provenance.changelog[" ++ natStr index ++ "]"
         jsonPointer := some ptr
         currentValue := getValueAtPointer baseline ptr
         proposedValue := some entry
         sourceKind := .extracted
         repoSources := if changedFiles.length = 0 then
             ((amGet context.anchorMap "README.md#scope").getD []).map
               (fun a => { a with commit := context.headSha })
           else changedFiles.map (fun p =>
             { path := p, startLine := .fin 1, endLine := .fin 1, commit := context.headSha })
         confidence := confidence
         gate := gate
         verifierNotes := if gate = .warn then some "Review high-change volume" else none }])

/-- `buildFactsAndMutations` of the deterministic pipeline: the
hard-coded title fact followed by the per-section facts (each guarded by
the anchor-presence check of `addFact` and the source's truthiness
conditions), then the changelog. -/
def buildFactsAndMutations (baseline : JVal) (changedFiles : List String)
    (context : RepositoryInsights) (nowIso : String) : JVal × List Fact :=
  let hs := context.headSha
  let s := ((baseline, ([] : List Fact)))
  let s := addFact hs s
    { jsonPath := "$.meta.title", jsonPointer := "/meta/title",
      proposedValue := some (.str "ML System Card (GitHub-native, PR-first)"),
      currentValue := getValueAtPointer baseline "/meta/title",
      anchors := amGet context.anchorMap "README.md#title",
      confidence := mkRat 19 20, sourceKind := .extracted }
  let s := match context.repositoryUrl with
    | some url =>
        if url.length = 0 then s else
        addFact hs s
          { jsonPath := "$.meta.links.repo", jsonPointer := "/meta/links/repo",
            proposedValue := some (.str url),
            currentValue := getValueAtPointer baseline "/meta/links/repo",
            anchors := amGet context.anchorMap "README.md#repo-link",
            confidence := mkRat 9 10, sourceKind := .extracted }
    | none => s
  let s := addFact hs s
    { jsonPath := "$.business.useCase", jsonPointer := "/business/useCase",
      proposedValue := some (.str context.useCase),
      currentValue := getValueAtPointer baseline "/business/useCase",
      anchors := amGet context.anchorMap "README.md#why",
      confidence := mkRat 9 10, sourceKind := .extracted }
  let s := addFact hs s
    { jsonPath := "$.business.intendedUse", jsonPointer := "/business/intendedUse",
      proposedValue := some (.str context.intendedUse),
      currentValue := getValueAtPointer baseline "/business/intendedUse",
      anchors := amGet context.anchorMap "README.md#scope",
      confidence := mkRat 17 20, sourceKind := .extracted }
  let s := if context.nonGoals.length = 0 then s else addFact hs s
    { jsonPath := "$.business.nonGoals", jsonPointer := "/business/nonGoals",
      proposedValue := some (strsVal context.nonGoals),
      currentValue := getValueAtPointer baseline "/business/nonGoals",
      anchors := amGet context.anchorMap "README.md#out-of-scope",
      confidence := mkRat 17 20, sourceKind := .extracted }
  let s := if context.outOfScopeUse.length = 0 then s else addFact hs s
    { jsonPath := "$.business.outOfScopeUse", jsonPointer := "/business/outOfScopeUse",
      proposedValue := some (strsVal context.outOfScopeUse),
      currentValue := getValueAtPointer baseline "/business/outOfScopeUse",
      anchors := amGet context.anchorMap "README.md#out-of-scope",
      confidence := mkRat 4 5, sourceKind := .extracted }
  let s := if context.userPopulations.length = 0 then s else
    let stakeholderAnchors := ((amGet context.anchorMap "README.md#stakeholders").getD [])
      ++ ((amGet context.anchorMap "docs/stakeholders.yaml#titles").getD [])
    addFact hs s
      { jsonPath := "$.business.userPopulations", jsonPointer := "/business/userPopulations",
        proposedValue := some (strsVal context.userPopulations),
        currentValue := getValueAtPointer baseline "/business/userPopulations",
        anchors := if stakeholderAnchors.length = 0 then none else some stakeholderAnchors,
        confidence := mkRat 4 5, sourceKind := .extracted }
  let s := addFact hs s
    { jsonPath := "$.devInsight.codeOverview.languages",
      jsonPointer := "/devInsight/codeOverview/languages",
      proposedValue := some (strsVal context.languages),
      currentValue := getValueAtPointer baseline "/devInsight/codeOverview/languages",
      anchors := amGet context.anchorMap "CODE#languages",
      confidence := mkRat 9 10, sourceKind := .extracted }
  let s := addFact hs s
    { jsonPath := "$.devInsight.codeOverview.entrypoints",
      jsonPointer := "/devInsight/codeOverview/entrypoints",
      proposedValue := some (strsVal context.entrypoints),
      currentValue := getValueAtPointer baseline "/devInsight/codeOverview/entrypoints",
      anchors := amGet context.anchorMap "CODE#entrypoints",
      confidence := mkRat 17 20, sourceKind := .extracted }
  let s := if context.components.length = 0 then s else addFact hs s
    { jsonPath := "$.devInsight.codeOverview.components",
      jsonPointer := "/devInsight/codeOverview/components",
      proposedValue := some (.arr context.components),
      currentValue := getValueAtPointer baseline "/devInsight/codeOverview/components",
      anchors := amGet context.anchorMap "CODE#components",
      confidence := mkRat 4 5, sourceKind := .extracted }
  let s := if context.dependencyHighlights.length = 0 then s else addFact hs s
    { jsonPath := "$.devInsight.architecture.depsSummary",
      jsonPointer := "/devInsight/architecture/depsSummary",
      proposedValue := some (strsVal context.dependencyHighlights),
      currentValue := getValueAtPointer baseline "/devInsight/architecture/depsSummary",
      anchors := amGet context.anchorMap "CODE#deps",
      confidence := mkRat 17 20, sourceKind := .extracted }
  let s := if context.dataFlow.length = 0 then s else addFact hs s
    { jsonPath := "$.devInsight.architecture.dataFlow",
      jsonPointer := "/devInsight/architecture/dataFlow",
      proposedValue := some (strsVal context.dataFlow),
      currentValue := getValueAtPointer baseline "/devInsight/architecture/dataFlow",
      anchors := amGet context.anchorMap "README.md#workflow",
      confidence := mkRat 3 4, sourceKind := .extracted }
  let s := addFact hs s
    { jsonPath := "$.devInsight.qualitySignals.testsPresent",
      jsonPointer := "/devInsight/qualitySignals/testsPresent",
      proposedValue := some (.bool context.testsPresent),
      currentValue := getValueAtPointer baseline "/devInsight/qualitySignals/testsPresent",
      anchors := amGet context.anchorMap "README.md#commands",
      confidence := mkRat 4 5, sourceKind := .extracted }
  let s := match context.coverageHint with
    | some hint =>
        if hint.length = 0 then s else addFact hs s
          { jsonPath := "$.devInsight.qualitySignals.coverageHint",
            jsonPointer := "/devInsight/qualitySignals/coverageHint",
            proposedValue := some (.str hint),
            currentValue := getValueAtPointer baseline "/devInsight/qualitySignals/coverageHint",
            anchors := amGet context.anchorMap "README.md#commands",
            confidence := mkRat 3 4, sourceKind := .extracted }
    | none => s
  let s := addFact hs s
    { jsonPath := "$.mlCore.problem", jsonPointer := "/mlCore/problem",
      proposedValue := some (.str context.problemSummary),
      currentValue := getValueAtPointer baseline "/mlCore/problem",
      anchors := amGet context.anchorMap "README.md#why",
      confidence := mkRat 17 20, sourceKind := .extracted }
  let s := if context.governancePolicies.length = 0 then s else addFact hs s
    { jsonPath := "$.governance.policies", jsonPointer := "/governance/policies",
      proposedValue := some (strsVal context.governancePolicies),
      currentValue := getValueAtPointer baseline "/governance/policies",
      anchors := amGet context.anchorMap "README.md#auto-merge",
      confidence := mkRat 3 4, sourceKind := .extracted }
  let changelogFacts := buildChangelogFacts s.1 baseline changedFiles context nowIso
  (changelogFacts.1, s.2 ++ changelogFacts.2)

/-! ## Apply engine (`scripts/src/actions/apply.ts`, `src/unnamed/part_001`) -/

/-- A reviewer decision (`Decision` of `lib/card/types.ts`). -/
inductive DecisionKind where
  | accept
  | reject
  | edit
deriving DecidableEq, Repr

/-- A decision record. -/
structure Decision where
  jsonPath : String
  decision : DecisionKind
  editedValue : Option JVal := none
  anchors : Option (List Anchor) := none
  lock : Option Bool := none
  skipGeneration : Option Bool := none
deriving Repr

/-- `decisionByPath.get`: the map is built by `forEach`, so the last
decision for a path wins. -/
def decisionFor (decisions : List Decision) (p : String) : Option Decision :=
  decisions.reverse.find? (fun d => d.jsonPath == p)

/-- `filterFacts` of the apply engine: with no decisions keep gate-OK
facts; otherwise rejects drop, edits force the edited value with gate OK,
and undecided facts pass only on gate OK. -/
def filterFacts (facts : List Fact) (decisions : List Decision) : List Fact :=
  if decisions.length = 0 then facts.filter (fun f => f.gate == Gate.ok)
  else List.flatten (facts.map (fun fact =>
    match decisionFor decisions fact.jsonPath with
    | none => if fact.gate == Gate.ok then [fact] else []
    | some d =>
        match d.decision with
        | .reject => []
        | .edit =>
            match d.editedValue with
            | some ev =>
                [{ fact with
                    proposedValue := some ev,
                    repoSources := d.anchors.getD fact.repoSources,
                    gate := Gate.ok }]
            | none => [fact]
        | .accept => [fact]))

/-- An RFC 6902 operation; this flow only ever builds `add` operations
(a fact with no proposed value would write `undefined`, modelled as
null). -/
inductive Operation where
  | add (path : String) (value : JVal)
deriving DecidableEq, Repr

/-- One `add` of the `rfc6902` dependency: a missing parent is an error,
an object member is set, and an array index inserts (`-` appends). -/
def rfcAddTokens : JVal → List String → JVal → Option JVal
  | _, [], v => some v
  | .obj fs, [t], v => some (.obj (assocSet fs t v))
  | .arr xs, [t], v =>
      if t = "-" then some (.arr (xs ++ [v]))
      else if isNumericTok t then
        if tokNat t ≤ xs.length then
          some (.arr (xs.take (tokNat t) ++ v :: xs.drop (tokNat t)))
        else none
      else none
  | .obj fs, t :: rest, v =>
      match assocFind fs t with
      | some child => (rfcAddTokens child rest v).map (fun c => .obj (assocSet fs t c))
      | none => none
  | .arr xs, t :: rest, v =>
      if isNumericTok t && tokNat t < xs.length then
        (rfcAddTokens xs[tokNat t]! rest v).map (fun c => .arr (xs.set (tokNat t) c))
      else none
  | _, _, _ => none

/-- `applyPatch` of `rfc6902`: each operation is attempted in turn on the
running document; a failed operation leaves the document as it was and
is reported in the result list (`true` = some operation failed). -/
def rfcRunOps : JVal → List Operation → JVal × Bool
  | doc, [] => (doc, false)
  | doc, .add path v :: rest =>
      match rfcAddTokens doc (pointerTokens path) v with
      | some doc1 =>
          let r := rfcRunOps doc1 rest
          (r.1, r.2)
      | none =>
          let r := rfcRunOps doc rest
          (r.1, true)

/-- `applyPatchAndWriteCard` (`src/unnamed/part_001`): parse the old
YAML (`none`/null become `{}`), apply the patch, throw on any per-op
error, and write `stringifyDeterministic` of the result — whose parsed
value is the scripts canonicalization of the patched document. -/
def applyPatchAndWriteCard (env : JsEnv) (oldDoc : Option JVal)
    (patch : List Operation) : Option JVal :=
  let baseline := match oldDoc with
    | none => .obj []
    | some .null => .obj []
    | some v => v
  let r := rfcRunOps baseline patch
  if r.2 then none else some (normScr env [] r.1)

/-- Split a character list at a separator character. -/
def splitOn (sep : Char) : List Char → List (List Char)
  | [] => [[]]
  | c :: rest =>
      if c = sep then [] :: splitOn sep rest
      else
        match splitOn sep rest with
        | [] => [[c]]
        | seg :: segs => (c :: seg) :: segs

/-- `pointer.split("/").filter(Boolean)` — note: no `~`-unescaping
here, unlike the pipeline's pointer walk. -/
def jsonPointerParts (p : String) : List String :=
  ((splitOn '/' p.data).map (fun seg => seg.asString)).filter (fun t => t.length ≠ 0)

/-- lodash `get` along a dot path, as used for the parent-initialization
probe. -/
def lodashGet (doc : JVal) (dotPath : String) : Option JVal :=
  getTokens (some doc) ((splitOn '.' dotPath.data).map (fun seg => seg.asString))

/-- `undefined` or `null`. -/
def isNullish : Option JVal → Bool
  | none => true
  | some .null => true
  | _ => false

/-- JavaScript truthiness of a JSON value. -/
def jvalTruthy : JVal → Bool
  | .null => false
  | .bool b => b
  | .num (.fin q) => decide (q ≠ 0)
  | .num .nan => false
  | .num _ => true
  | .str s => decide (s.length ≠ 0)
  | .arr _ => true
  | .obj _ => true

/-- JavaScript `delete` of an object property. -/
def delProp (v : JVal) (k : String) : JVal :=
  match v with
  | .obj fs => .obj (fs.filter (fun e => !(e.1 == k)))
  | other => other

/-- The per-fact body of `filterPatchByDecisions`' first loop: an `add`
initializing a null/undefined parent (once per parent path), then the
fact's own `add`. -/
def patchOpsForFact (currentCard : JVal) (acc : List Operation × List String)
    (f : Fact) : List Operation × List String :=
  match f.jsonPointer with
  | none => acc
  | some jp =>
      let parts := jsonPointerParts jp
      let acc1 :=
        if parts.length ≤ 1 then acc
        else
          let parentParts := parts.dropLast
          let parentPointer := "/" ++ String.intercalate "/" parentParts
          let dotPath := String.intercalate "." parentParts
          if isNullish (lodashGet currentCard dotPath)
              && !(acc.2.contains parentPointer) then
            let lastPart := parts.getLastD ""
            (acc.1 ++ [Operation.add parentPointer
                (if isNumericTok lastPart || lastPart == "-" then .arr [] else .obj [])],
              acc.2 ++ [parentPointer])
          else acc
      (acc1.1 ++ [Operation.add jp (f.proposedValue.getD .null)], acc1.2)

/-- A source tag as serialized into field metadata. -/
def sourceKindStr : SourceKind → String
  | .extracted => "extracted"
  | .inferred => "inferred"
  | .manual => "manual"

/-- An anchor as a JSON value (for field-metadata items). -/
def anchorVal (a : Anchor) : JVal :=
  .obj ([("path", .str a.path), ("startLine", .num a.startLine),
      ("endLine", .num a.endLine), ("commit", .str a.commit)]
    ++ (match a.fingerprint with | some fp => [("fingerprint", .str fp)] | none => [])
    ++ (match a.kind with | some k => [("kind", .str k)] | none => []))

/-- The per-decision body of the `ai.fieldMeta` loop of
`filterPatchByDecisions`: update or create the metadata item for the
decided path, toggling the `locked` and `skip_generation` guards. -/
def fieldMetaStep (proposalFacts : List Fact) (st : List JVal × Bool)
    (d : Decision) : List JVal × Bool :=
  match proposalFacts.find? (fun f => f.jsonPath == d.jsonPath) with
  | none => st
  | some fact =>
      let fieldMeta := st.1
      let existingIndex := fieldMeta.findIdx? (fun m =>
        getFieldOpt m "path" == some (.str d.jsonPath))
      let metaItem0 := match existingIndex with
        | some i => fieldMeta[i]!
        | none => .obj [("path", .str d.jsonPath),
            ("source", .obj [("kind", .str (sourceKindStr fact.sourceKind))]),
            ("confidence", .num (.fin fact.confidence)),
            ("repoSources", .arr (fact.repoSources.map anchorVal)),
            ("needs_review", .bool false),
            ("guard", .obj [])]
      let guard0 := match getFieldOpt metaItem0 "guard" with
        | some g => if jvalTruthy g then g else .obj []
        | none => .obj []
      let s1 : JVal × Bool :=
        match d.lock with
        | none => (guard0, false)
        | some true =>
            if jvalTruthy ((getFieldOpt guard0 "locked").getD .null) then (guard0, false)
            else (setProp guard0 "locked" (.bool true), true)
        | some false =>
            if jvalTruthy ((getFieldOpt guard0 "locked").getD .null) then
              (delProp guard0 "locked", true)
            else (guard0, false)
      let s2 : JVal × Bool :=
        match d.skipGeneration with
        | none => (s1.1, false)
        | some true =>
            if jvalTruthy ((getFieldOpt s1.1 "skip_generation").getD .null) then (s1.1, false)
            else (setProp s1.1 "skip_generation" (.bool true), true)
        | some false =>
            if jvalTruthy ((getFieldOpt s1.1 "skip_generation").getD .null) then
              (delProp s1.1 "skip_generation", true)
            else (s1.1, false)
      let guard := s2.1
      let itemChanged := s1.2 || s2.2
      let metaItem1 := setProp metaItem0 "guard" guard
      let metaItem2 := if (objFields guard).length = 0 then delProp metaItem1 "guard"
        else metaItem1
      if itemChanged || existingIndex.isNone then
        match existingIndex with
        | some i => (fieldMeta.set i metaItem2, true)
        | none => (fieldMeta ++ [metaItem2], true)
      else (fieldMeta, st.2)

/-- `filterPatchByDecisions`: regenerated `add` operations for every
accepted fact (with null-parent initialization), followed by the
`ai.fieldMeta` update when any decision changed metadata. -/
def filterPatchByDecisions (proposalFacts acceptedFacts : List Fact)
    (currentCard : JVal) (decisions : List Decision) : List Operation :=
  let ops := (acceptedFacts.foldl (patchOpsForFact currentCard) ([], [])).1
  let fieldMeta0 :=
    match (getFieldOpt currentCard "ai").bind (fun a => getFieldOpt a "fieldMeta") with
    | some (.arr xs) => xs
    | _ => []
  let fm := decisions.foldl (fieldMetaStep proposalFacts) (fieldMeta0, false)
  if fm.2 then
    let ops1 := if jvalTruthy ((getFieldOpt currentCard "ai").getD .null) then ops
      else ops ++ [Operation.add "/ai" (.obj [])]
    ops1 ++ [Operation.add "/ai/fieldMeta" (.arr fm.1)]
  else ops

/-- The speculative apply loop of `main` (`MAX_LOOPS = 5`): build the
patch, apply it to a clone, accept on schema validity, otherwise prune
the facts whose pointers own reported error paths and retry; the pair
returned is the accepted patch and the surviving facts.  `schemaValid`
and `errorPaths` stand for the compiled Ajv validator. -/
def applyLoop (schemaValid : JVal → Bool) (errorPaths : JVal → List String)
    (card : JVal) (proposalFacts : List Fact) (decisions : List Decision) :
    Nat → List Fact → List Operation × List Fact
  | 0, facts => ([], facts)
  | fuel + 1, facts =>
      let patch := filterPatchByDecisions proposalFacts facts card decisions
      let candidate := (rfcRunOps card patch).1
      if schemaValid candidate then (patch, facts)
      else
        let badPaths := errorPaths candidate
        let invalid := facts.filter (fun f =>
          match f.jsonPointer with
          | none => false
          | some jp => badPaths.contains jp
              || badPaths.any (fun bp => strStarts (jp ++ "/") bp))
        if invalid.length = 0 then (patch, facts)
        else
          let invalidPtrs := invalid.map Fact.jsonPointer
          applyLoop schemaValid errorPaths card proposalFacts decisions fuel
            (facts.filter (fun f => !(invalidPtrs.contains f.jsonPointer)))

/-- `createEmptyCard` of `scripts/src/card/seed.ts`; its
`lastGeneratedAt` timestamp is the `nowIso` input. -/
def createEmptyCard (nowIso : String) : JVal :=
  .obj
    [("ai", .obj []),
      ("business", .obj
        [("executiveSummary", .null), ("useCase", .null), ("intendedUse", .null),
          ("nonGoals", .arr []), ("kpis", .arr []), ("pilot", .obj []),
          ("outOfScopeUse", .arr []), ("userPopulations", .arr []),
          ("hazardousUseCases", .arr [])]),
      ("devInsight", .obj
        [("codeOverview", .obj
            [("languages", .arr []), ("entrypoints", .arr []), ("components", .arr [])]),
          ("architecture", .obj
            [("publicApis", .arr []), ("dataFlow", .arr []), ("depsSummary", .arr [])]),
          ("qualitySignals", .obj
            [("testsPresent", .null), ("coverageHint", .null),
              ("complexityHints", .arr []), ("todoHotspots", .arr [])]),
          ("runtimePerf", .obj
            [("latencyMsP50", .null), ("latencyMsP95", .null), ("notes", .null)])]),
      ("governance", .obj
        [("policies", .arr []), ("assessments", .arr []), ("riskRegister", .arr []),
          ("signOffs", .arr [])]),
      ("integration", .obj
        [("api", .null), ("security", .null), ("errorModel", .arr []),
          ("idempotency", .null), ("versioningPolicy", .null),
          ("operationalQualities", .arr []), ("fallbacks", .arr []),
          ("observability", .arr []), ("driftSignals", .arr []), ("uxNotes", .null),
          ("feedbackChannels", .null), ("incidentReporting", .null)]),
      ("meta", .obj
        [("title", .null), ("owners", .arr []), ("maturity", .null), ("tags", .arr []),
          ("links", .obj []), ("language", .null), ("createdAt", .null),
          ("lastUpdated", .null)]),
      ("mlCore", .obj
        [("problem", .null), ("datasets", .arr []), ("features", .arr []),
          ("baselines", .arr []), ("qualities", .arr []), ("failureModes", .arr []),
          ("training", .null), ("artifactURIs", .null)]),
      ("provenance", .obj
        [("changelog", .arr []), ("branch", .null), ("commit", .null),
          ("lastGeneratedAt", .str nowIso)]),
      ("stakeholderNotes", .obj [])]

/-- The card-repair step of `main`: a non-object root is replaced by the
seed, and missing or null root sections are filled in from it.  (An
array root keeps its entries: the string-keyed repairs JavaScript would
attach to it are invisible to property reads and serialization, so the
model ignores them while still reporting the repair.) -/
def repairCard (seed card : JVal) : JVal × Bool :=
  match card with
  | .obj fs =>
      (objFields seed).foldl
        (fun st kv =>
          if isNullish (getFieldOpt st.1 kv.1) then (setProp st.1 kv.1 kv.2, true)
          else st)
        (.obj fs, false)
  | .arr xs => (.arr xs, true)
  | _ => (seed, true)

/-- One apply-engine run of `main` on the card document: repair against
the seed, drop `$schema`, filter the facts, run the speculative loop,
stamp `lastGeneratedAt`, inject stakeholder notes, and write the patched
card through `applyPatchAndWriteCard`.  `cardDoc` is the parsed current
card file (`none` = no file), and the written file parses back to the
returned value. -/
def applyEngineRun (env : JsEnv) (schemaValid : JVal → Bool)
    (errorPaths : JVal → List String) (nowIso seedNow : String)
    (cardDoc : Option JVal) (proposalFacts : List Fact)
    (proposalNotes : List (String × JVal)) (decisions : List Decision) : Option JVal :=
  let loaded := match cardDoc with
    | none => .obj []
    | some v => v
  let seed := createEmptyCard seedNow
  let rc := repairCard seed loaded
  let card0 := rc.1
  let schemaPresent := jvalTruthy ((getFieldOpt card0 "$schema").getD .null)
  let card1 := if schemaPresent then delProp card0 "$schema" else card0
  let baselineDoc : Option JVal :=
    if rc.2 || schemaPresent then some (normScr env [] card1) else cardDoc
  let filtered := filterFacts proposalFacts decisions
  let lr := applyLoop schemaValid errorPaths card1 proposalFacts decisions 5 filtered
  let patch := lr.1 ++ [Operation.add "/provenance/lastGeneratedAt" (.str nowIso)]
  let patch := if proposalNotes.length ≠ 0 then
      patch ++ [Operation.add "/stakeholderNotes" (.obj proposalNotes)]
    else patch
  applyPatchAndWriteCard env baselineDoc patch

/-! ## Claim C2 -/

/-- First apply-engine run: empty card file content `{}` (repaired from
the seed), one gate-OK changelog fact, no decisions, no notes, a trivial
schema (`{}` accepts everything), and a frozen clock. -/
def applyRun1 : Option JVal :=
  applyEngineRun envW (fun _ => true) (fun _ => []) "Ta" "T" (some (.obj []))
    [baseFactChangelog] [] []

/-- Second run on the document written by the first, with the same
proposal, decisions and clock. -/
def applyRun2 : Option JVal :=
  applyRun1.bind (fun doc =>
    applyEngineRun envW (fun _ => true) (fun _ => []) "Ta" "T" (some doc)
      [baseFactChangelog] [] [])

/-- C2 evaluated at the failing input: the
changelog fact's `add` at `/provenance/changelog/0` is an RFC 6902 array
*insert*, so the first run leaves one changelog entry but the second run
— same proposal, same (absent) decisions, same clock — inserts the same
entry again, and the written documents differ.  Re-applying is not a
no-op even with `lastGeneratedAt` frozen. -/
theorem apply_engine_second_run_duplicates_changelog :
    (applyRun1.bind (fun d => getValueAtPointer d "/provenance/changelog")).map
        (fun v => match v with | .arr xs => xs.length | _ => 0) = some 1 ∧
      (applyRun2.bind (fun d => getValueAtPointer d "/provenance/changelog")).map
        (fun v => match v with | .arr xs => xs.length | _ => 0) = some 2 ∧
      applyRun2 ≠ applyRun1 := by
  refine ⟨?_, ?_, ?_⟩ <;> decide

/-! ## Claim C9 -/

/-- Evidence for Scenario A: a repository whose README is titled
"Widget Service".  The analysis (`buildRepositoryInsights`) extracts no
title text — the README heading only yields the `README.md#title`
anchor — so the insights carry the anchor and nothing else. -/
def insightsC9 : RepositoryInsights :=
  { runId := "r1", headSha := "abc1234", useCase := "", intendedUse := "",
    nonGoals := [], outOfScopeUse := [], repositoryUrl := none,
    languages := [], entrypoints := [], components := [],
    dependencyHighlights := [], testsPresent := false, coverageHint := none,
    problemSummary := "", userPopulations := [], dataFlow := [],
    governancePolicies := [],
    anchorMap := [("README.md#title",
      [{ path := "README.md", startLine := .fin 1, endLine := .fin 1, commit := "" }])] }

/-- Counterexample to C9 as stated: the deterministic pass over baseline
`{}` and the Widget Service README yields exactly one fact, at
`$.meta.title`, but its proposed value is the hard-coded string
"ML System Card (GitHub-native, PR-first)" — the README's own title is
never read and "Widget Service" does not appear. -/
theorem title_fact_ignores_readme_title :
    ((buildFactsAndMutations (.obj []) [] insightsC9 "T").2.map
        (fun f => (f.jsonPath, f.proposedValue)))
      = [("$.meta.title", some (.str "ML System Card (GitHub-native, PR-first)"))] ∧
      ¬ (JVal.str "ML System Card (GitHub-native, PR-first)" = .str "Widget Service") := by
  constructor <;> decide

/-- C9 amended: in Scenario A the deterministic pass yields one fact at
`$.meta.title` with one anchor and gate OK, and the apply engine merges
it into a document whose `meta.title` is the hard-coded
"ML System Card (GitHub-native, PR-first)" — not the README title. -/
theorem deterministic_title_fact_applied :
    ((buildFactsAndMutations (.obj []) [] insightsC9 "T").2.map
        (fun f => (f.jsonPath, f.repoSources.length, f.gate)))
      = [("$.meta.title", 1, Gate.ok)] ∧
      ((applyEngineRun envW (fun _ => true) (fun _ => []) "Ta" "T" (some (.obj []))
          (buildFactsAndMutations (.obj []) [] insightsC9 "T").2 [] []).bind
        (fun doc => getValueAtPointer doc "/meta/title"))
      = some (.str "ML System Card (GitHub-native, PR-first)") := by
  constructor <;> decide

/-! ## Claim C10 -/

/-- Counterexample to C10: the two canonicalizers detect timestamps
differently — `lib` rewrites exactly the strings matching `ISO_REGEX`,
while `scripts` rewrites whatever `Date.parse` accepts that contains an
uppercase `T`.  Under the witness host, "Tn" parses (to epoch 0) and
contains a `T` but does not match the pattern, so `scripts` canonicalizes
it to "T" while `lib` keeps it; on a real JavaScript host the same split
happens for `Date.parse`-accepted strings such as "2023-01-01T00:00",
which lack the seconds field the pattern requires. -/
theorem canonicalizers_differ :
    normLib envW [] (.str "Tn") = some (.str "Tn") ∧
      normScr envW [] (.str "Tn") = .str "T" ∧
      JVal.str "Tn" ≠ JVal.str "T" := by
  refine ⟨?_, ?_, ?_⟩ <;> decide

/-- A sorter is registered for the path in either canonicalizer's
table. -/
def sorterRegistered (path : List String) : Bool :=
  (findSorter libSorters (joinSegs path)).isSome
    || (findSorter scrSorters (joinSegs path)).isSome

/-- Strings on which the two timestamp detections agree: either both
rewrite it (the pattern matches, it has an uppercase `T`, and `Date.parse`
succeeds) or both keep it (no pattern match, and no `T` or no parse). -/
def tsAgree (env : JsEnv) (s : String) : Bool :=
  (isoRegexMatch s && hasUpperT s && (env.parseMs s).isSome)
    || (!isoRegexMatch s && (!hasUpperT s || (env.parseMs s).isNone))

mutual

/-- The agreement domain for C10: every string is
timestamp-unambiguous, and every array lying at a registered sorter path
has at most one element (so the differing comparators never weigh in). -/
def agreeOk (env : JsEnv) (path : List String) : JVal → Bool
  | .null => true
  | .bool _ => true
  | .num _ => true
  | .str s => tsAgree env s
  | .arr xs =>
      (!sorterRegistered path || decide (xs.length ≤ 1)) && agreeOkArr env path 0 xs
  | .obj fs => agreeOkObj env path fs

/-- Element-wise agreement for an array, with the index path. -/
def agreeOkArr (env : JsEnv) (path : List String) (i : Nat) : List JVal → Bool
  | [] => true
  | x :: xs => agreeOk env (path ++ [natStr i]) x && agreeOkArr env path (i + 1) xs

/-- Entry-wise agreement for an object, with the key path. -/
def agreeOkObj (env : JsEnv) (path : List String) : List (String × JVal) → Bool
  | [] => true
  | (k, v) :: fs => agreeOk env (path ++ [k]) v && agreeOkObj env path fs

end

theorem stableSort_short (le : α → α → Bool) :
    ∀ xs : List α, xs.length ≤ 1 → stableSort le xs = xs
  | [], _ => rfl
  | [_], _ => rfl
  | _ :: _ :: _, h => absurd h (by simp)

theorem normScrArr_length (env : JsEnv) (p : List String) :
    ∀ (xs : List JVal) (i : Nat), (normScrArr env p i xs).length = xs.length := by
  intro xs
  induction xs with
  | nil => intro i; rfl
  | cons x xs ih =>
      intro i
      rw [normScrArr, List.length_cons, List.length_cons, ih]

theorem normArr_agree_of_members (env : JsEnv) (p : List String) :
    ∀ xs : List JVal,
      (∀ x ∈ xs, ∀ pa, agreeOk env pa x = true →
        normLib env pa x = some (normScr env pa x)) →
      ∀ i, agreeOkArr env p i xs = true →
        normLibArr env p i xs = some (normScrArr env p i xs) := by
  intro xs
  induction xs with
  | nil => intro _ i _; rfl
  | cons x xs ihx =>
      intro hmem i hA
      rw [agreeOkArr, Bool.and_eq_true] at hA
      rw [normLibArr, normScrArr, hmem x (by simp) _ hA.1,
        ihx (fun y hy => hmem y (List.mem_cons_of_mem _ hy)) (i + 1) hA.2]
      rfl

theorem normObj_agree_of_members (env : JsEnv) (p : List String) :
    ∀ fs : List (String × JVal),
      (∀ kv ∈ fs, ∀ pa, agreeOk env pa kv.2 = true →
        normLib env pa kv.2 = some (normScr env pa kv.2)) →
      agreeOkObj env p fs = true →
        normLibObj env p fs = some (normScrObj env p fs) := by
  intro fs
  induction fs with
  | nil => intro _ _; rfl
  | cons kv fs ihf =>
      obtain ⟨k, v⟩ := kv
      intro hmem hA
      rw [agreeOkObj, Bool.and_eq_true] at hA
      rw [normLibObj, normScrObj, hmem (k, v) (by simp) _ hA.1,
        ihf (fun kv hkv => hmem kv (List.mem_cons_of_mem _ hkv)) hA.2]
      rfl

/-- C10 amended: on the agreement domain — timestamp-unambiguous strings
and at most one element in each array at a registered sorter path — the
two canonicalizers compute the same function (and the lib one cannot
throw). -/
theorem normalizeCard_agree (env : JsEnv) :
    ∀ v : JVal, ∀ path : List String, agreeOk env path v = true →
      normLib env path v = some (normScr env path v) := by
  intro v
  induction v using JVal.strongInd with
  | hnull => intro p _; rfl
  | hbool b => intro p _; rfl
  | hnum n => intro p _; rfl
  | hstr s =>
      intro p h
      rw [agreeOk, tsAgree] at h
      by_cases hr : isoRegexMatch s = true
      · simp only [hr, Bool.not_true, Bool.false_and, Bool.or_false, Bool.true_and,
          Bool.and_eq_true] at h
        obtain ⟨t, ht⟩ := Option.isSome_iff_exists.mp h.2
        simp [normLib, normScr, hr, ht, h.1]
      · rw [Bool.not_eq_true] at hr
        simp only [hr, Bool.false_and, Bool.not_false, Bool.true_and, Bool.false_or] at h
        cases hp : env.parseMs s with
        | none => simp [normLib, normScr, hr, hp]
        | some t =>
            rw [hp] at h
            simp only [Option.isNone_some, Bool.or_false, Bool.not_eq_true'] at h
            simp [normLib, normScr, hr, hp, h]
  | harr xs ih =>
      intro p h
      rw [agreeOk, Bool.and_eq_true] at h
      obtain ⟨hshort, helems⟩ := h
      have hys := normArr_agree_of_members env p xs ih 0 helems
      rw [normLib, normScr, hys]
      show some (JVal.arr (match findSorter libSorters (joinSegs p) with
          | some f => stableSort (fun a b => (f env a b).isLe) (normScrArr env p 0 xs)
          | none => normScrArr env p 0 xs))
        = some (match findSorter scrSorters (joinSegs p) with
          | some f =>
              JVal.arr (stableSort (fun a b => (f env a b).isLe) (normScrArr env p 0 xs))
          | none => JVal.arr (normScrArr env p 0 xs))
      cases hl : findSorter libSorters (joinSegs p) with
      | none =>
          cases hs2 : findSorter scrSorters (joinSegs p) with
          | none => rfl
          | some g =>
              have hreg : sorterRegistered p = true := by
                rw [sorterRegistered, hs2]
                simp
              rw [hreg] at hshort
              have hlen : xs.length ≤ 1 := of_decide_eq_true (by simpa using hshort)
              show some (JVal.arr (normScrArr env p 0 xs))
                = some (JVal.arr
                    (stableSort (fun a b => (g env a b).isLe) (normScrArr env p 0 xs)))
              rw [stableSort_short _ _ (by rw [normScrArr_length]; exact hlen)]
      | some f =>
          have hreg : sorterRegistered p = true := by
            rw [sorterRegistered, hl]
            simp
          rw [hreg] at hshort
          have hlen : xs.length ≤ 1 := of_decide_eq_true (by simpa using hshort)
          have hlen2 : (normScrArr env p 0 xs).length ≤ 1 := by
            rw [normScrArr_length]
            exact hlen
          cases hs2 : findSorter scrSorters (joinSegs p) with
          | none =>
              show some (JVal.arr
                    (stableSort (fun a b => (f env a b).isLe) (normScrArr env p 0 xs)))
                = some (JVal.arr (normScrArr env p 0 xs))
              rw [stableSort_short _ _ hlen2]
          | some g =>
              show some (JVal.arr
                    (stableSort (fun a b => (f env a b).isLe) (normScrArr env p 0 xs)))
                = some (JVal.arr
                    (stableSort (fun a b => (g env a b).isLe) (normScrArr env p 0 xs)))
              rw [stableSort_short _ _ hlen2, stableSort_short _ _ hlen2]
  | hobj fs ih =>
      intro p h
      rw [agreeOk] at h
      have hgs := normObj_agree_of_members env p fs ih h
      rw [normLib, normScr, hgs]
      rfl

/-- A document in the agreement domain: a registered array path
(`business.kpis`) holding a single element, an unregistered array with
several, and only unambiguous strings. -/
def docC10 : JVal :=
  .obj [("business", .obj [("kpis", .arr [.obj [("name", .str "x")]])]),
    ("flags", .arr [.null, .bool true, .str "ok"])]

/-- Witness for the amended C10 at a concrete environment and
document. -/
theorem normalizeCard_agree_witness :
    agreeOk envW [] docC10 = true ∧
      normLib envW [] docC10 = some (normScr envW [] docC10) :=
  ⟨by decide, normalizeCard_agree envW docC10 [] (by decide)⟩

end InfinityMsc
